import Mathlib

/-!
The pcb2gcode engine: vectorial surface, toolpath stitching and outline grouping

A shallow embedding of `src/surface_vectorial.cpp`.

* `coordinate_type` is the integral coordinate type of the geometry (the source keeps it apart
  from `coordinate_type_fp`, casts `double(scale)` before dividing and casts `bg::area` back
  with `coordinate_type(...)`); it is embedded as `Int`.
* The Boost.Geometry operations the file calls (`bg::equals`, `bg::covered_by`, `bg::area`,
  `bg::buffer`, `bg::intersection`) are a library boundary: they are the fields of `Kernel`.
* The quotient `x / double(scale)` of `push_point` is a `double`; it is kept abstract as the
  field `fdiv` of `Surface`, so nothing below depends on how it rounds.
* `offset_polygon` receives `mirror_axis` from `get_toolpath`, where it is a
  `coordinate_type`; `2 * mirror_axis - x` is embedded in `Int`.
* A `double` that is converted to `coordinate_type` (`mill->tolerance * scale`,
  `0.0001 * scale`) is idealised as a rational and truncated toward zero.
* Undefined behaviour (indexing out of range, modulo by zero) and a loop that runs out of
  fuel are `none`.
-/

set_option autoImplicit false

namespace Pcb2gcode

/-! ## Data model -/

/-- Embedding of `point_type`: the pair `(x, y)` of integral coordinates. -/
abbrev Point := Int × Int

/-- Embedding of `ring_type`: the vector of the ring's points. -/
abbrev Ring := List Point

/-- Embedding of `polygon_type`: an outer ring and the vector of inner rings. -/
structure Polygon where
  outer : Ring
  inners : List Ring
deriving DecidableEq

/-- Embedding of `multi_polygon_type`. -/
abbrev MultiPolygon := List Polygon

/-- The Boost.Geometry operations called by `surface_vectorial.cpp`. -/
structure Kernel where
  /-- Embedding of `bg::equals` on two rings. -/
  equals_ring : Ring → Ring → Bool
  /-- Embedding of `bg::equals` on two polygons. -/
  equals_polygon : Polygon → Polygon → Bool
  /-- Embedding of `bg::covered_by` on two rings. -/
  covered_by : Ring → Ring → Bool
  /-- Embedding of `bg::covered_by` on a linestring and a ring. -/
  covered_by_linestring : List Point → Ring → Bool
  /-- Embedding of `coordinate_type(bg::area(ring))`. -/
  area : Ring → Int
  /-- Embedding of `bg::buffer` with the symmetric distance given, the other strategies fixed. -/
  buffer : Polygon → Int → MultiPolygon
  /-- Embedding of `bg::buffer` on a multi-polygon (`fill_outline`). -/
  buffer_multi : MultiPolygon → Int → MultiPolygon
  /-- Embedding of `bg::intersection` of two polygons. -/
  intersection_pp : Polygon → Polygon → MultiPolygon
  /-- Embedding of `bg::intersection` of a polygon and a multi-polygon. -/
  intersection_pm : Polygon → MultiPolygon → MultiPolygon
  /-- Embedding of `bg::intersection` of two multi-polygons. -/
  intersection_mm : MultiPolygon → MultiPolygon → MultiPolygon

/-- The members of `Surface_vectorial` that `offset_polygon` reads. -/
structure Surface (F : Type) where
  /-- The member `scale`. -/
  scale : Int
  /-- The geometry `mask->vectorial_surface` when a mask is attached. -/
  mask : Option MultiPolygon
  /-- The `double` quotient `x / double(scale)`, applied to `x` and `scale`. -/
  fdiv : Int → Int → F

/-- The mutable data the closures of `offset_polygon` share: the `toolpath` vector and
`last_point`.  The field `log` is ghost: for every toolpath, the `(ring, start)` arguments of
the `copy_ring_to_toolpath` calls that wrote into it. -/
structure Stitch (F : Type) where
  toolpath : List (List (F × F))
  last_point : Point
  log : List (List (Ring × Nat))

/-! ## The closures of `offset_polygon` -/

/-- Embedding of `bg::comparable_distance` on two points: the squared distance. -/
def comparable_distance (p q : Point) : Int :=
  (p.1 - q.1) * (p.1 - q.1) + (p.2 - q.2) * (p.2 - q.2)

/-- The pair `push_point` emits for a point. -/
def emit_point {F : Type} (S : Surface F) (mirror : Bool) (mirror_axis : Int)
    (point : Point) : F × F :=
  if mirror then
    (S.fdiv (2 * mirror_axis - point.1) S.scale, S.fdiv point.2 S.scale)
  else
    (S.fdiv point.1 S.scale, S.fdiv point.2 S.scale)

/-- Appends `x` to the last element of a vector of vectors (`v.back()->push_back(x)`).
`offset_polygon` pushes a path before any point, so the empty case is never reached. -/
def push_to_back {X : Type} : List (List X) → X → List (List X)
  | [], _ => []
  | [p], x => [p ++ [x]]
  | p :: q :: t, x => p :: push_to_back (q :: t) x

/-- Embedding of the closure `push_point`. -/
def push_point {F : Type} (S : Surface F) (mirror : Bool) (mirror_axis : Int)
    (point : Point) (toolpath : List (List (F × F))) : List (List (F × F)) :=
  push_to_back toolpath (emit_point S mirror mirror_axis point)

/-- The `do ... while (i != start)` loop of `copy_ring_to_toolpath`, one iteration per unit
of fuel; it returns the final `i` and the toolpath. -/
def copy_ring_loop {F : Type} (S : Surface F) (mirror : Bool) (mirror_axis : Int)
    (ring : Ring) (start : Nat) :
    Nat → Nat → List (List (F × F)) → Option (Nat × List (List (F × F)))
  | 0, _, _ => none
  | fuel + 1, i, toolpath =>
    match ring[i]? with
    | none => none
    | some p =>
      if ring.length - 1 = 0 then none
      else
        if (i + 1) % (ring.length - 1) ≠ start then
          copy_ring_loop S mirror mirror_axis ring start fuel ((i + 1) % (ring.length - 1))
            (push_point S mirror mirror_axis p toolpath)
        else
          some ((i + 1) % (ring.length - 1), push_point S mirror mirror_axis p toolpath)

/-- Embedding of the closure `copy_ring_to_toolpath`. -/
def copy_ring_to_toolpath {F : Type} (S : Surface F) (mirror : Bool) (mirror_axis : Int)
    (ring : Ring) (start : Nat) (st : Stitch F) : Option (Stitch F) :=
  match copy_ring_loop S mirror mirror_axis ring start ring.length start st.toolpath with
  | none => none
  | some (i, toolpath) =>
    match ring[i]? with
    | none => none
    | some p =>
      some { toolpath := push_point S mirror mirror_axis p toolpath
             last_point := p
             log := push_to_back st.log (ring, start) }

/-- Embedding of the closure `find_first_nonempty`: the position of the first non-empty list. -/
def find_first_nonempty : List (List Ring) → Option Nat
  | [] => none
  | l :: rest =>
    if l.isEmpty then (find_first_nonempty rest).map (· + 1) else some 0

/-- The `for` loop of `find_closest_point_index` over the points from index `i` on. -/
def closest_scan (last_point : Point) : List Point → Nat → Int → Nat → Nat
  | [], _, _, index => index
  | p :: ps, i, min_distance, index =>
    if comparable_distance p last_point < min_distance then
      closest_scan last_point ps (i + 1) (comparable_distance p last_point) i
    else
      closest_scan last_point ps (i + 1) min_distance index

/-- Embedding of the closure `find_closest_point_index`. -/
def find_closest_point_index (ring : Ring) (last_point : Point) : Option Nat :=
  match ring with
  | [] => none
  | p :: ps => some (closest_scan last_point ps 1 (comparable_distance p last_point) 0)

/-! ## `offset_polygon` -/

/-- Embedding of `mask_surface`: the surface is intersected with the mask when there is one. -/
def mask_surface (K : Kernel) (mask : Option MultiPolygon) (surface : MultiPolygon) :
    MultiPolygon :=
  match mask with
  | some m => K.intersection_mm surface m
  | none => surface

/-- The polygon `(*polygons)[i]` that pass `i` of `offset_polygon` computes, with whether the
pass raises the contention flag. -/
def pass_polygon {F : Type} (K : Kernel) (S : Surface F) (input voronoi : MultiPolygon)
    (offset : Int) (index i : Nat) : Option (Polygon × Bool) :=
  if offset = 0 then
    match input[index]? with
    | none => none
    | some region => some (region, false)
  else if 0 < offset then
    match input[index]? with
    | none => none
    | some region =>
      match (K.buffer region (offset * ((i : Int) + 1)))[0]? with
      | none => none
      | some buffered =>
        match voronoi[index]? with
        | none => none
        | some cell =>
          match (mask_surface K S.mask (K.intersection_pp buffered cell))[0]? with
          | none => none
          | some clipped => some (clipped, !K.equals_polygon clipped buffered)
  else
    match S.mask with
    | some m =>
      match voronoi[index]? with
      | none => none
      | some cell =>
        match (K.intersection_pm cell m)[0]? with
        | none => none
        | some clipped => some (clipped, false)
    | none =>
      match voronoi[index]? with
      | none => none
      | some cell => some (cell, false)

/-- The variables the pass loop of `offset_polygon` updates. -/
structure Passes (F : Type) where
  st : Stitch F
  contentions : Bool
  outer_collapsed : Bool
  /-- The polygons of the passes already computed, `(*polygons)[0..i)`. -/
  polygons : List Polygon
  /-- The hole lists of the passes already computed, the lists before `ring_i`. -/
  rings : List (List Ring)

/-- The outer-ring part of pass `i`: what happens to `outer_collapsed` and to the toolpath. -/
def emit_outer {F : Type} (K : Kernel) (S : Surface F) (mirror : Bool) (mirror_axis : Int)
    (i : Nat) (poly : Polygon) (a : Passes F) : Option (Bool × Stitch F) :=
  if i = 0 then
    match copy_ring_to_toolpath S mirror mirror_axis poly.outer 0 a.st with
    | none => none
    | some st => some (a.outer_collapsed, st)
  else
    match a.polygons[i - 1]? with
    | none => none
    | some prev =>
      if a.outer_collapsed || K.equals_ring poly.outer prev.outer then
        some (true, a.st)
      else
        match find_closest_point_index poly.outer a.st.last_point with
        | none => none
        | some start =>
          match copy_ring_to_toolpath S mirror mirror_axis poly.outer start a.st with
          | none => none
          | some st => some (false, st)

/-- The body of the pass loop of `offset_polygon` for the index `i`. -/
def pass_body {F : Type} (K : Kernel) (S : Surface F) (input voronoi : MultiPolygon)
    (offset : Int) (index : Nat) (mirror : Bool) (mirror_axis : Int)
    (i : Nat) (a : Passes F) : Option (Passes F) :=
  match pass_polygon K S input voronoi offset index i with
  | none => none
  | some (poly, contended) =>
    match emit_outer K S mirror mirror_axis i poly a with
    | none => none
    | some (collapsed, st) =>
      some { st := st
             contentions := a.contentions || contended
             outer_collapsed := collapsed
             polygons := a.polygons ++ [poly]
             rings := a.rings ++ [poly.inners] }

/-- The pass loop `for (i = ...; i < steps; i++)` with `n` iterations left. -/
def pass_loop {F : Type} (K : Kernel) (S : Surface F) (input voronoi : MultiPolygon)
    (offset : Int) (index : Nat) (mirror : Bool) (mirror_axis : Int) :
    Nat → Nat → Passes F → Option (Passes F)
  | 0, _, a => some a
  | n + 1, i, a =>
    match pass_body K S input voronoi offset index mirror mirror_axis i a with
    | none => none
    | some b => pass_loop K S input voronoi offset index mirror mirror_axis n (i + 1) b

/-- How the scan of one pass's hole list ends. -/
inductive Match where
  /-- No ring matched: `j` reached `ring_j->end()`. -/
  | absent
  /-- The ring at position `k` is `bg::equals` to `prev`. -/
  | identical (k : Nat)
  /-- The ring at position `k` is covered by `prev` and reachable; `index` is its start. -/
  | nested (k : Nat) (ring : Ring) (index : Nat)
deriving DecidableEq

/-- The loop `for (j = ring_j->begin(); j != ring_j->end(); j++)` up to its `break`. -/
def scan_pass (K : Kernel) (prev : Ring) (last_point : Point) :
    List Ring → Nat → Option Match
  | [], _ => some Match.absent
  | r :: rs, k =>
    if K.equals_ring r prev then some (Match.identical k)
    else if K.covered_by r prev then
      match find_closest_point_index r last_point with
      | none => none
      | some index =>
        match r[index]? with
        | none => none
        | some v =>
          if K.covered_by_linestring [v, last_point] prev.reverse then
            some (Match.nested k r index)
          else scan_pass K prev last_point rs (k + 1)
    else scan_pass K prev last_point rs (k + 1)

/-- The loop `while (ring_j != rings.end())` over the hole lists of the later passes; it
returns those lists after the erasures, and the stitching state. -/
def chain {F : Type} (K : Kernel) (S : Surface F) (mirror : Bool) (mirror_axis : Int) :
    List (List Ring) → Ring → Stitch F → Option (List (List Ring) × Stitch F)
  | [], _, st => some ([], st)
  | l :: rest, prev, st =>
    match scan_pass K prev st.last_point l 0 with
    | none => none
    | some Match.absent => some (l :: rest, st)
    | some (Match.identical k) =>
      match chain K S mirror mirror_axis rest prev st with
      | none => none
      | some r => some (l.eraseIdx k :: r.1, r.2)
    | some (Match.nested k ring index) =>
      match copy_ring_to_toolpath S mirror mirror_axis ring index st with
      | none => none
      | some st1 =>
        match chain K S mirror mirror_axis rest ring st1 with
        | none => none
        | some r => some (l.eraseIdx k :: r.1, r.2)

/-- One iteration of the loop `while (ring_i != rings.end())` when `ring_i` is at position
`i`: a toolpath is opened with the front of that list, chained, and the front is erased. -/
def stitch_step {F : Type} (K : Kernel) (S : Surface F) (mirror : Bool) (mirror_axis : Int)
    (rings : List (List Ring)) (i : Nat) (st : Stitch F) :
    Option (List (List Ring) × Stitch F) :=
  match rings[i]? with
  | none => none
  | some [] => none
  | some (biggest :: tail) =>
    match copy_ring_to_toolpath S mirror mirror_axis biggest 0
        { st with toolpath := st.toolpath ++ [[]], log := st.log ++ [[]] } with
    | none => none
    | some st1 =>
      match chain K S mirror mirror_axis (rings.drop (i + 1)) biggest st1 with
      | none => none
      | some r => some (rings.take i ++ tail :: r.1, r.2)

/-- The loop `while (ring_i != rings.end())`, one iteration per unit of fuel. -/
def stitch_loop {F : Type} (K : Kernel) (S : Surface F) (mirror : Bool) (mirror_axis : Int) :
    Nat → List (List Ring) → Stitch F → Option (List (List Ring) × Stitch F)
  | 0, _, _ => none
  | fuel + 1, rings, st =>
    match find_first_nonempty rings with
    | none => some (rings, st)
    | some i =>
      match stitch_step K S mirror mirror_axis rings i st with
      | none => none
      | some r => stitch_loop K S mirror mirror_axis fuel r.1 r.2

/-- The number of rings in the pool. -/
def pool_size (rings : List (List Ring)) : Nat :=
  (rings.map List.length).sum

/-- What a call of `offset_polygon` leaves behind: the returned polygons, the `toolpath` and
`contentions` reference arguments, and (ghost) the copy log and the final pool. -/
structure Offset (F : Type) where
  polygons : List Polygon
  toolpath : List (List (F × F))
  contentions : Bool
  log : List (List (Ring × Nat))
  rings : List (List Ring)

/-- The number of passes `offset_polygon` computes: `steps`, or `1` for a negative offset. -/
def pass_count (offset : Int) (steps : Nat) : Nat :=
  if offset < 0 then 1 else steps

/-- The state in which the pass loop of `offset_polygon` starts: an empty path has been
pushed on `toolpath`.  The source leaves `last_point` uninitialised; the copy of pass 0 writes
it before it is first read, and the embedding starts it at `(0, 0)`. -/
def initial_passes {F : Type} (toolpath : List (List (F × F))) (contentions : Bool) :
    Passes F :=
  { st := { toolpath := toolpath ++ [[]]
            last_point := (0, 0)
            log := toolpath.map (fun _ => []) ++ [[]] }
    contentions := contentions
    outer_collapsed := false
    polygons := []
    rings := [] }

/-- Embedding of `Surface_vectorial::offset_polygon`. -/
def offset_polygon {F : Type} (K : Kernel) (S : Surface F) (input voronoi : MultiPolygon)
    (toolpath : List (List (F × F))) (contentions : Bool) (offset : Int) (index : Nat)
    (steps : Nat) (mirror : Bool) (mirror_axis : Int) : Option (Offset F) :=
  match pass_loop K S input voronoi offset index mirror mirror_axis
      (pass_count offset steps) 0 (initial_passes toolpath contentions) with
  | none => none
  | some a =>
    match stitch_loop K S mirror mirror_axis (pool_size a.rings + 1) a.rings a.st with
    | none => none
    | some r =>
      some { polygons := a.polygons
             toolpath := r.2.toolpath
             contentions := a.contentions
             log := r.2.log
             rings := r.1 }

end Pcb2gcode

namespace Pcb2gcode

/-! ## `group_rings` and `fill_outline`

The elements of the list `rings` are pointers; they are embedded as values of a type `α` with
decidable equality (pointer equality), `area` is the map `areas` and `covered_by a b` is
`bg::covered_by(*a, *b)`. -/

/-- The loop of `std::max_element` with `compare_2nd`: `largest` (at position `best`) is
replaced by a later element only when its area is strictly smaller. -/
def max_element_from {α : Type} (area : α → Int) : List α → Nat → α → Nat → Nat
  | [], _, _, best => best
  | x :: xs, i, largest, best =>
    if area largest < area x then max_element_from area xs (i + 1) x i
    else max_element_from area xs (i + 1) largest best

/-- Embedding of `max_element(rings.begin(), rings.end(), compare_2nd)`: the position of the
first ring of largest area. -/
def max_element {α : Type} (area : α → Int) : List α → Nat
  | [] => 0
  | x :: xs => max_element_from area xs 1 x 0

/-- The test under which `group_rings` pushes the ring `i` into the holes of the group of
`biggest`: it is covered by `biggest` and by no other ring `j` of the list. -/
def joins_group {α : Type} [DecidableEq α] (covered_by : α → α → Bool) (biggest : α)
    (rings : List α) (i : α) : Bool :=
  covered_by i biggest && !(rings.any (fun j => decide (i ≠ j) && covered_by i j))

/-- The loop `while (!rings.empty())` of `group_rings`, one iteration per unit of fuel.  The
source reads `**biggest_ring` after `rings.erase(biggest_ring)`; it is embedded as the ring
stored in `current_ring.first` just before the erase. -/
def group_rings_loop {α : Type} [DecidableEq α] (area : α → Int) (covered_by : α → α → Bool) :
    Nat → List α → List (α × List α) → Option (List (α × List α))
  | _, [], grouped_rings => some grouped_rings
  | 0, _ :: _, _ => none
  | fuel + 1, r :: rs, grouped_rings =>
    match (r :: rs)[max_element area (r :: rs)]? with
    | none => none
    | some biggest =>
      group_rings_loop area covered_by fuel
        (((r :: rs).eraseIdx (max_element area (r :: rs))).filter
          (fun i => !joins_group covered_by biggest
            ((r :: rs).eraseIdx (max_element area (r :: rs))) i))
        (grouped_rings ++ [(biggest,
          ((r :: rs).eraseIdx (max_element area (r :: rs))).filter
            (joins_group covered_by biggest
              ((r :: rs).eraseIdx (max_element area (r :: rs)))))])

/-- Embedding of `Surface_vectorial::group_rings`. -/
def group_rings {α : Type} [DecidableEq α] (area : α → Int) (covered_by : α → α → Bool)
    (rings : List α) (grouped_rings : List (α × List α)) : Option (List (α × List α)) :=
  group_rings_loop area covered_by rings.length rings grouped_rings

/-- The inner ring `fill_outline` pushes for the hole `ring`: the first inner ring of its
polygon if it has one, its outer ring otherwise. -/
def hole_ring (polygon : Polygon) : Ring :=
  match polygon.inners with
  | [] => polygon.outer
  | inner :: _ => inner

/-- The multi-polygon `filled_outline` that `fill_outline` assembles before buffering.  The
pointer `&(polygon.outer())` is the pair of the polygon's position and the polygon, which is
also what `rings_map` returns for it. -/
def filled_outline (K : Kernel) (vectorial_surface : MultiPolygon) : Option MultiPolygon :=
  match group_rings (fun r : Nat × Polygon => K.area r.2.outer)
      (fun a b => K.covered_by a.2.outer b.2.outer) vectorial_surface.enum [] with
  | none => none
  | some grouped_rings =>
    some (grouped_rings.map (fun g =>
      { outer := g.1.2.outer, inners := g.2.map (fun ring => hole_ring ring.2) }))

/-! ## `get_toolpath` -/

/-- The conversion of a `double` to `coordinate_type`: truncation toward zero.  The `double`
is idealised as a rational. -/
def to_coordinate (q : ℚ) : Int :=
  if 0 ≤ q then ⌊q⌋ else ⌈q⌉

/-- Embedding of `Surface_vectorial::fill_outline`. -/
def fill_outline (K : Kernel) (scale : Int) (linewidth : ℚ) (vectorial_surface : MultiPolygon) :
    Option MultiPolygon :=
  match filled_outline K vectorial_surface with
  | none => none
  | some filled => some (K.buffer_multi filled (to_coordinate (-linewidth * scale / 2)))

/-- The `tolerance` that `get_toolpath` passes to `Voronoi::build_voronoi`, from
`mill->tolerance` and `scale`. -/
def get_toolpath_tolerance (mill_tolerance : ℚ) (scale : Int) : Int :=
  if to_coordinate (mill_tolerance * scale) ≤ 0 then to_coordinate (0.0001 * scale)
  else to_coordinate (mill_tolerance * scale)

end Pcb2gcode

namespace Pcb2gcode

/-! ## Specification vocabulary for `offset_polygon` -/

/-- The points `copy_ring_to_toolpath` walks through from `start`: the first `size - 1`
positions of the ring in cyclic order, then the position `start` again. -/
def ring_from (ring : Ring) (start : Nat) : List Point :=
  (List.range (ring.length - 1)).map
      (fun t => ring.getD ((start + t) % (ring.length - 1)) (0, 0))
    ++ [ring.getD start (0, 0)]

/-- A ring is closed: it has at least two points and its last point is its first. -/
def closed_ring (ring : Ring) : Prop :=
  2 ≤ ring.length ∧ ring[0]? = ring[ring.length - 1]?

instance (ring : Ring) : Decidable (closed_ring ring) := by
  unfold closed_ring; infer_instance

/-- Every ring of the pool is closed. -/
def closed_pool (rings : List (List Ring)) : Prop :=
  ∀ l ∈ rings, ∀ r ∈ l, closed_ring r

instance (rings : List (List Ring)) : Decidable (closed_pool rings) := by
  unfold closed_pool; infer_instance

/-- The points a toolpath receives from a sequence of ring copies. -/
def copied_points {F : Type} (S : Surface F) (mirror : Bool) (mirror_axis : Int)
    (copies : List (Ring × Nat)) : List (F × F) :=
  copies.flatMap (fun c => (ring_from c.1 c.2).map (emit_point S mirror mirror_axis))

/-- The ring `r` is nested in the current ring `prev` and reachable from `last_point`: it is
covered by `prev`, and the segment from its vertex `v` nearest to `last_point` (at index `s`)
to `last_point` is covered by `prev` reversed. -/
def nested_reachable (K : Kernel) (prev : Ring) (last_point : Point) (r : Ring) (s : Nat)
    (v : Point) : Prop :=
  K.covered_by r prev = true ∧ find_closest_point_index r last_point = some s ∧
    r[s]? = some v ∧ K.covered_by_linestring [v, last_point] prev.reverse = true

/-- The relation the specification requires between a ring copied into a hole toolpath
(`a`: the ring and its start index) and the ring copied after it (`b`): `b` is covered by
`a`, it starts at its vertex nearest to the last emitted point (the start vertex of `a`), and
the segment between the two is covered by `a` reversed. -/
def nested_step (K : Kernel) (a b : Ring × Nat) : Prop :=
  K.covered_by b.1 a.1 = true ∧
  find_closest_point_index b.1 (a.1.getD a.2 (0, 0)) = some b.2 ∧
  K.covered_by_linestring [b.1.getD b.2 (0, 0), a.1.getD a.2 (0, 0)] a.1.reverse = true

/-- The chaining of hole rings as the specification describes it.
`Chained K prev last_point later copies later'`: from the current ring `prev` and the last
emitted point, scanning the hole lists `later` of the later passes in pass order appends the
ring copies `copies` and leaves the lists `later'`. -/
inductive Chained (K : Kernel) :
    Ring → Point → List (List Ring) → List (Ring × Nat) → List (List Ring) → Prop
  /-- No later pass is left. -/
  | finished (prev : Ring) (last_point : Point) : Chained K prev last_point [] [] []
  /-- The next pass offers no ring identical to `prev` or nested and reachable: stop. -/
  | stop (prev : Ring) (last_point : Point) (l : List Ring) (rest : List (List Ring)) :
      (∀ r ∈ l, K.equals_ring r prev = false ∧
        ∀ s v, ¬ nested_reachable K prev last_point r s v) →
      Chained K prev last_point (l :: rest) [] (l :: rest)
  /-- The next pass offers the ring `r` identical to `prev`: it is consumed, nothing is
  appended, the current ring stays. -/
  | identical (prev : Ring) (last_point : Point) (l : List Ring) (rest : List (List Ring))
      (k : Nat) (r : Ring) (copies : List (Ring × Nat)) (rest' : List (List Ring)) :
      l[k]? = some r → K.equals_ring r prev = true →
      Chained K prev last_point rest copies rest' →
      Chained K prev last_point (l :: rest) copies (l.eraseIdx k :: rest')
  /-- The next pass offers the ring `r` nested in `prev` and reachable: it is consumed and
  appended from its vertex `v` at index `s`, and becomes the current ring. -/
  | nested (prev : Ring) (last_point : Point) (l : List Ring) (rest : List (List Ring))
      (k : Nat) (r : Ring) (s : Nat) (v : Point) (copies : List (Ring × Nat))
      (rest' : List (List Ring)) :
      l[k]? = some r → nested_reachable K prev last_point r s v →
      Chained K r v rest copies rest' →
      Chained K prev last_point (l :: rest) ((r, s) :: copies) (l.eraseIdx k :: rest')

/-- What `scan_pass` reports about the list it scans from position `k0` on. -/
def scan_result (K : Kernel) (prev : Ring) (last_point : Point) (l : List Ring) (k0 : Nat) :
    Match → Prop
  | Match.absent =>
    ∀ r ∈ l, K.equals_ring r prev = false ∧ ∀ s v, ¬ nested_reachable K prev last_point r s v
  | Match.identical k =>
    ∃ j, k = k0 + j ∧ l[j]? = some (l.getD j []) ∧ j < l.length ∧
      K.equals_ring (l.getD j []) prev = true ∧
      ∀ i, i < j → K.equals_ring (l.getD i []) prev = false ∧
        ∀ s v, ¬ nested_reachable K prev last_point (l.getD i []) s v
  | Match.nested k r s =>
    ∃ j v, k = k0 + j ∧ l[j]? = some r ∧ nested_reachable K prev last_point r s v ∧
      s < r.length - 1 ∧ v = r.getD s (0, 0)

/-- The state of the pass loop of `offset_polygon` after the passes `0 .. i-1` (`1 ≤ i`), for
the pass polygons `P` and contention results `C`: `k` outer rings have been copied, where `k`
is the first collapsed pass if there is one before `i`, and `i` otherwise. -/
def pass_invariant {F : Type} (K : Kernel) (S : Surface F) (mirror : Bool) (mirror_axis : Int)
    (P : Nat → Polygon) (C : Nat → Bool) (toolpath : List (List (F × F))) (contentions : Bool)
    (i : Nat) (a : Passes F) : Prop :=
  a.polygons = (List.range i).map P ∧
  a.rings = (List.range i).map (fun j => (P j).inners) ∧
  a.contentions = (contentions || (List.range i).any C) ∧
  ∃ (k : Nat) (cs : List (Ring × Nat)),
    1 ≤ k ∧ k ≤ i ∧
    (∀ j, 1 ≤ j → j < k → K.equals_ring (P j).outer (P (j - 1)).outer = false) ∧
    (k < i → K.equals_ring (P k).outer (P (k - 1)).outer = true) ∧
    a.outer_collapsed = decide (k < i) ∧
    a.st.toolpath = toolpath ++ [copied_points S mirror mirror_axis cs] ∧
    a.st.log = toolpath.map (fun _ => []) ++ [cs] ∧
    cs.length = k ∧
    cs.map Prod.fst = (List.range k).map (fun j => (P j).outer) ∧
    cs.head? = some ((P 0).outer, 0)

end Pcb2gcode

namespace Pcb2gcode

/-! ## Specification vocabulary for `group_rings` -/

/-- The grouping of rings as the specification describes it.  `Grouped area covered_by rings
groups`: the first group's top is a ring of largest area among `rings`; with `rest` the other
rings, its holes are exactly the rings of `rest` covered by the top and covered by no other
ring of `rest`; the rings of `rest` that are not holes are grouped in the same way. -/
inductive Grouped {α : Type} (area : α → Int) (covered_by : α → α → Bool) :
    List α → List (α × List α) → Prop
  /-- No ring is left. -/
  | done : Grouped area covered_by [] []
  /-- A group is opened with `top`. -/
  | group (rings rest remaining : List α) (top : α) (holes : List α)
      (groups : List (α × List α)) :
      rings.Perm (top :: rest) →
      (∀ r ∈ rings, area r ≤ area top) →
      (∀ r, r ∈ holes ↔
        r ∈ rest ∧ covered_by r top = true ∧ ∀ j ∈ rest, j ≠ r → covered_by r j = false) →
      (∀ r, r ∈ remaining ↔ r ∈ rest ∧ r ∉ holes) →
      Grouped area covered_by remaining groups →
      Grouped area covered_by rings ((top, holes) :: groups)

end Pcb2gcode

namespace Pcb2gcode

/-! ## A concrete board

Axis-parallel rectangles, on which the geometric predicates are decided by bounding boxes. -/

/-- Twice the signed area of a ring by the trapezoid formula (clockwise is positive). -/
def double_area (ring : Ring) : Int :=
  (List.zipWith (fun p q => (p.1 + q.1) * (p.2 - q.2)) ring ring.tail).sum

/-- Every point of `points` lies in the bounding box of `ring`. -/
def in_bounding_box (points : List Point) (ring : Ring) : Bool :=
  points.all (fun p =>
    ring.any (fun q => decide (q.1 ≤ p.1)) && ring.any (fun q => decide (p.1 ≤ q.1)) &&
    ring.any (fun q => decide (q.2 ≤ p.2)) && ring.any (fun q => decide (p.2 ≤ q.2)))

/-- A kernel for axis-parallel rectangles: equality of rings is equality of their vertex
lists, covering is inclusion in the bounding box, buffering and intersecting return the
polygon unchanged (as they do for a zero distance and for a polygon inside the clip). -/
def demo_kernel : Kernel where
  equals_ring := fun a b => decide (a = b)
  equals_polygon := fun a b => decide (a = b)
  covered_by := fun a b => in_bounding_box a b
  covered_by_linestring := fun l r => in_bounding_box l r
  area := fun r => Int.tdiv (double_area r) 2
  buffer := fun p _ => [p]
  buffer_multi := fun m _ => m
  intersection_pp := fun a _ => [a]
  intersection_pm := fun a _ => [a]
  intersection_mm := fun a _ => a

/-- A surface with scale 1000 and no mask; the quotient is the rational one. -/
def demo_surface : Surface ℚ where
  scale := 1000
  mask := none
  fdiv := fun x s => (x : ℚ) / (s : ℚ)

/-- A clockwise square of side 100. -/
def demo_outer : Ring := [(0, 0), (0, 100), (100, 100), (100, 0), (0, 0)]

/-- A counter-clockwise square of side 20. -/
def demo_medium_hole : Ring := [(10, 10), (30, 10), (30, 30), (10, 30), (10, 10)]

/-- A counter-clockwise square of side 5. -/
def demo_small_hole : Ring := [(35, 10), (40, 10), (40, 15), (35, 15), (35, 10)]

/-- A counter-clockwise square of side 40. -/
def demo_big_hole : Ring := [(50, 50), (90, 50), (90, 90), (50, 90), (50, 50)]

/-- A counter-clockwise square of side 10 inside `demo_medium_hole`. -/
def demo_nested_hole : Ring := [(15, 15), (25, 15), (25, 25), (15, 25), (15, 15)]

/-- The square with the three holes, in the order medium, small, big. -/
def demo_region : Polygon :=
  { outer := demo_outer, inners := [demo_medium_hole, demo_small_hole, demo_big_hole] }

/-- The square with the medium hole only. -/
def demo_frame : Polygon := { outer := demo_outer, inners := [demo_medium_hole] }

/-- The medium square as a region of its own, without holes. -/
def demo_island : Polygon := { outer := demo_medium_hole.reverse, inners := [] }

/-- A stitching state with one open, empty toolpath. -/
def demo_stitch : Stitch ℚ := { toolpath := [[]], last_point := (0, 0), log := [[]] }

end Pcb2gcode

namespace Pcb2gcode

/-! ## `get_toolpath`, the whole function -/

/-- The fields of the mill that `get_toolpath` reads.  `extra_passes` is `none` when the mill
is not an `Isolator` (the `dynamic_pointer_cast` gives a null pointer). -/
structure Mill where
  tool_diameter : ℚ
  tolerance : ℚ
  optimise : Bool
  extra_passes : Option Nat

/-- The operations `get_toolpath` calls besides `offset_polygon`, for toolpaths with
coordinates in `F`. -/
structure Collaborators (F : Type) where
  /-- Embedding of `bg::unique` on the surface. -/
  unique : MultiPolygon → MultiPolygon
  /-- Embedding of `Voronoi::build_voronoi` applied to the surface, the offset distance and
  the tolerance. -/
  build_voronoi : MultiPolygon → Int → Int → MultiPolygon
  /-- Embedding of `tsp_solver::nearest_neighbour` with the start point `(0, 0)` and the
  epsilon `0.0001`. -/
  nearest_neighbour : List (List (F × F)) → List (List (F × F))
  /-- Embedding of `bg::simplify` on one path with the distance given. -/
  simplify : List (F × F) → ℚ → List (F × F)

/-- The members of `Surface_vectorial` that `get_toolpath` reads besides those of `Surface`:
the geometry, the x range of `bounding_box`, `width_in` and `height_in`. -/
structure Geometry where
  vectorial_surface : MultiPolygon
  min_x : Int
  max_x : Int
  width_in : ℚ
  height_in : ℚ

/-- The `voronoi_offset` that `get_toolpath` passes to `Voronoi::build_voronoi`. -/
def get_toolpath_voronoi_offset (tool_diameter width_in height_in : ℚ) (scale : Int) : Int :=
  to_coordinate (max (tool_diameter * scale * 5) (max width_in height_in * scale * 10))

/-- The `mirror_axis` of `get_toolpath`, from the x range of the bounding box; the division
is the one of `coordinate_type`, which truncates toward zero. -/
def get_toolpath_mirror_axis (mirror_absolute : Bool) (min_x max_x : Int) : Int :=
  if mirror_absolute then min_x else Int.tdiv (min_x + max_x) 2

/-- The loop of `get_toolpath` over the regions, with `n` regions left from the index `i`:
it threads `toolpath` and `contentions` through the calls of `offset_polygon`. -/
def region_loop {F : Type} (K : Kernel) (S : Surface F) (input voronoi : MultiPolygon)
    (grow : Int) (steps : Nat) (mirror : Bool) (mirror_axis : Int) :
    Nat → Nat → List (List (F × F)) → Bool → Option (List (List (F × F)) × Bool)
  | 0, _, toolpath, contentions => some (toolpath, contentions)
  | n + 1, i, toolpath, contentions =>
    match offset_polygon K S input voronoi toolpath contentions grow i steps mirror
        mirror_axis with
    | none => none
    | some res =>
      region_loop K S input voronoi grow steps mirror mirror_axis n (i + 1) res.toolpath
        res.contentions

/-- The text `get_toolpath` writes to `cerr` when `contentions` is set. -/
def clearance_warning : String :=
  "\nWarning: pcb2gcode hasn't been able to fulfill all clearance requirements and tried a best effort approach instead. You may want to check the g-code output and possibly use a smaller milling width.\n"

/-- What a call of `get_toolpath` produces: the returned toolpath, the texts written to
`cerr`, and (ghost) the value of the local `contentions` after the loop over the regions. -/
structure Toolpaths (F : Type) where
  toolpath : List (List (F × F))
  warnings : List String
  contentions : Bool

/-- Embedding of `Surface_vectorial::get_toolpath` (the debug image apart). -/
def get_toolpath {F : Type} (K : Kernel) (X : Collaborators F) (S : Surface F) (G : Geometry)
    (mill : Mill) (mirror mirror_absolute : Bool) : Option (Toolpaths F) :=
  match region_loop K S (X.unique G.vectorial_surface)
      (X.build_voronoi (X.unique G.vectorial_surface)
        (get_toolpath_voronoi_offset mill.tool_diameter G.width_in G.height_in S.scale)
        (get_toolpath_tolerance mill.tolerance S.scale))
      (to_coordinate (mill.tool_diameter / 2 * S.scale))
      ((match mill.extra_passes with
        | some extra_passes => extra_passes
        | none => 0) + 1)
      mirror (get_toolpath_mirror_axis mirror_absolute G.min_x G.max_x)
      (X.unique G.vectorial_surface).length 0 [] false with
  | none => none
  | some r =>
    some { toolpath :=
             if mill.optimise then
               (X.nearest_neighbour r.1).map (fun ring => X.simplify ring mill.tolerance)
             else X.nearest_neighbour r.1
           warnings := if r.2 then [clearance_warning] else []
           contentions := r.2 }

/-! ## `Board::createLayers` -/

/-- The extents an importer reports, as read into the temporary `float t`. -/
structure Extent where
  min_x : ℚ
  max_x : ℚ
  min_y : ℚ
  max_y : ℚ
deriving DecidableEq

/-- The body of the first loop of `createLayers` for one prepared layer. -/
def extend_extent (board : Extent) (importer : Extent) : Extent :=
  { min_x := if board.min_x > importer.min_x then importer.min_x else board.min_x
    max_x := if board.max_x < importer.max_x then importer.max_x else board.max_x
    min_y := if board.min_y > importer.min_y then importer.min_y else board.min_y
    max_y := if board.max_y < importer.max_y then importer.max_y else board.max_y }

/-- The first loop of `createLayers` over the entries of `prepared_layers`. -/
def room_needed : List (String × Extent) → Extent → Extent
  | [], board => board
  | layer :: rest, board => room_needed rest (extend_extent board layer.2)

/-- The board extent `min_x, max_x, min_y, max_y` that `Board::createLayers` computes before
it creates the layers; `prepared_layers` is the list of the map's entries. -/
def createLayers_extent (prepared_layers : List (String × Extent)) (margin : ℚ) : Extent :=
  if prepared_layers.any (fun layer => layer.1 == "outline") then
    room_needed prepared_layers
      { min_x := 10000, max_x := -10000, min_y := 10000, max_y := -10000 }
  else
    { min_x := (room_needed prepared_layers
        { min_x := 10000, max_x := -10000, min_y := 10000, max_y := -10000 }).min_x - margin
      max_x := (room_needed prepared_layers
        { min_x := 10000, max_x := -10000, min_y := 10000, max_y := -10000 }).max_x + margin
      min_y := (room_needed prepared_layers
        { min_x := 10000, max_x := -10000, min_y := 10000, max_y := -10000 }).min_y - margin
      max_y := (room_needed prepared_layers
        { min_x := 10000, max_x := -10000, min_y := 10000, max_y := -10000 }).max_y + margin }

end Pcb2gcode

namespace Pcb2gcode

/-- Two prepared layers without an outline. -/
def demo_layers : List (String × Extent) :=
  [("back", { min_x := 1, max_x := 5, min_y := 0, max_y := 4 }),
   ("front", { min_x := 2, max_x := 7, min_y := -1, max_y := 3 })]

end Pcb2gcode

namespace Pcb2gcode

/-! ## Specification vocabulary for the later claims -/

/-- The ring copy `b` starts at the vertex of its ring nearest to the last emitted point,
which is the start vertex of the ring copy `a` made just before it. -/
def closest_step (a b : Ring × Nat) : Prop :=
  find_closest_point_index b.1 (a.1.getD a.2 (0, 0)) = some b.2

/-- The copies logged for the toolpath being written are chained by `closest_step`, and
`last_point` is the start vertex of the last of them. -/
def start_invariant {F : Type} (lg : List (List (Ring × Nat))) (st : Stitch F) : Prop :=
  ∃ cs, st.log = lg ++ [cs] ∧ List.Chain' closest_step cs ∧
    ∀ c, cs.getLast? = some c → st.last_point = c.1.getD c.2 (0, 0)

end Pcb2gcode

namespace Pcb2gcode

/-! ## A concrete board with growth -/

/-- The least x and the least y of a ring. -/
def low_corner (ring : Ring) : Point :=
  ring.foldl (fun m p => (min m.1 p.1, min m.2 p.2)) (ring.headD (0, 0))

/-- The greatest x and the greatest y of a ring. -/
def high_corner (ring : Ring) : Point :=
  ring.foldl (fun m p => (max m.1 p.1, max m.2 p.2)) (ring.headD (0, 0))

/-- An axis-parallel rectangle with every side moved outward by `d`. -/
def grow_ring (d : Int) (ring : Ring) : Ring :=
  ring.map (fun p =>
    (if p.1 = (low_corner ring).1 then p.1 - d else p.1 + d,
     if p.2 = (low_corner ring).2 then p.2 - d else p.2 + d))

/-- A ring with every point moved into the bounding box of `cell`. -/
def clamp_ring (cell : Ring) (ring : Ring) : Ring :=
  ring.map (fun p =>
    (max (low_corner cell).1 (min (high_corner cell).1 p.1),
     max (low_corner cell).2 (min (high_corner cell).2 p.2)))

/-- The kernel `demo_kernel` with a buffer that grows the outer rectangle and shrinks the
holes, and an intersection of two polygons that clips the outer rectangle to the second
polygon's bounding box. -/
def demo_grow_kernel : Kernel :=
  { demo_kernel with
    buffer := fun p d =>
      [{ outer := grow_ring d p.outer, inners := p.inners.map (grow_ring (-d)) }]
    intersection_pp := fun a cell =>
      [{ outer := clamp_ring cell.outer a.outer, inners := a.inners }] }

/-- The Voronoi cell used on the concrete board: a square from `-6` to `106`. -/
def demo_cell : Polygon :=
  { outer := [(-6, -6), (-6, 106), (106, 106), (106, -6), (-6, -6)], inners := [] }

/-- Collaborators that give every region the cell `demo_cell` and leave the paths and the
surface as they are. -/
def demo_collaborators : Collaborators ℚ where
  unique := fun surface => surface
  build_voronoi := fun surface _ _ => surface.map (fun _ => demo_cell)
  nearest_neighbour := fun toolpath => toolpath
  simplify := fun ring _ => ring

/-- The square with one hole as the whole geometry. -/
def demo_geometry : Geometry where
  vectorial_surface := [demo_frame]
  min_x := 0
  max_x := 100
  width_in := 1 / 10
  height_in := 1 / 10

/-- An isolator of diameter `1/125` with one extra pass. -/
def demo_mill : Mill where
  tool_diameter := 1 / 125
  tolerance := 0
  optimise := false
  extra_passes := some 1

/-- The polygon of pass `j` for `demo_frame` grown by `4 * (j + 1)` and clipped by
`demo_cell`. -/
def demo_pass (j : Nat) : Polygon :=
  if j = 0 then
    { outer := [(-4, -4), (-4, 104), (104, 104), (104, -4), (-4, -4)]
      inners := [[(14, 14), (26, 14), (26, 26), (14, 26), (14, 14)]] }
  else
    { outer := [(-6, -6), (-6, 106), (106, 106), (106, -6), (-6, -6)]
      inners := [[(18, 18), (22, 18), (22, 22), (18, 22), (18, 18)]] }

end Pcb2gcode

namespace Pcb2gcode

theorem push_to_back_append {X : Type} (tp : List (List X)) (p : List X) (x : X) :
    push_to_back (tp ++ [p]) x = tp ++ [p ++ [x]] := by
  induction tp with
  | nil => rfl
  | cons a t ih =>
    cases t with
    | nil => rfl
    | cons b t =>
      show a :: push_to_back ((b :: t) ++ [p]) x = _
      rw [ih]; rfl

theorem map_range_succ {X : Type} (f : Nat → X) (k : Nat) :
    (List.range (k + 1)).map f = f 0 :: (List.range k).map (fun t => f (t + 1)) := by
  rw [List.range_succ_eq_map, List.map_cons, List.map_map]
  rfl

theorem getElem?_eq_getD {ring : Ring} {i : Nat} (h : i < ring.length) :
    ring[i]? = some (ring.getD i (0, 0)) := by
  simp [List.getD, List.getElem?_eq_getElem h]

theorem copy_ring_loop_run {F : Type} (S : Surface F) (mirror : Bool) (mirror_axis : Int)
    (ring : Ring) (start : Nat) (hm : 0 < ring.length - 1) :
    ∀ (k fuel i : Nat) (tp : List (List (F × F))) (p : List (F × F)),
      k ≤ fuel → 1 ≤ k → i < ring.length - 1 →
      (∀ t, 1 ≤ t → t < k → (i + t) % (ring.length - 1) ≠ start) →
      (i + k) % (ring.length - 1) = start →
      copy_ring_loop S mirror mirror_axis ring start fuel i (tp ++ [p]) =
        some (start, tp ++ [p ++ (List.range k).map (fun t =>
          emit_point S mirror mirror_axis
            (ring.getD ((i + t) % (ring.length - 1)) (0, 0)))]) := by
  intro k
  induction k with
  | zero => intro _ _ _ _ _ h; omega
  | succ k ih =>
    intro fuel i tp p hf _ hi hne heq
    obtain ⟨fuel, rfl⟩ : ∃ f, fuel = f + 1 := ⟨fuel - 1, by omega⟩
    have hget : ring[i]? = some (ring.getD i (0, 0)) := getElem?_eq_getD (by omega)
    have hmod : i % (ring.length - 1) = i := Nat.mod_eq_of_lt hi
    unfold copy_ring_loop
    simp only [hget]
    rw [if_neg (by omega)]
    by_cases hk : k = 0
    · subst hk
      have hr : List.range (0 + 1) = [0] := rfl
      rw [if_neg (not_not.mpr heq), push_point, push_to_back_append, heq, hr]
      simp only [List.map_cons, List.map_nil, Nat.add_zero, hmod]
    · have h1 : (i + 1) % (ring.length - 1) ≠ start := hne 1 le_rfl (by omega)
      rw [if_pos h1, push_point, push_to_back_append,
        ih fuel ((i + 1) % (ring.length - 1)) tp _ (by omega) (by omega)
          (Nat.mod_lt _ hm)
          (fun t ht1 ht2 => by
            rw [Nat.mod_add_mod, Nat.add_assoc]
            exact hne (1 + t) (by omega) (by omega))
          (by rw [Nat.mod_add_mod, Nat.add_assoc, Nat.add_comm 1 k]; exact heq)]
      rw [map_range_succ, List.append_assoc]
      simp only [List.singleton_append, Nat.add_zero, hmod]
      have hfun : (fun t => emit_point S mirror mirror_axis
            (ring.getD (((i + 1) % (ring.length - 1) + t) % (ring.length - 1)) (0, 0))) =
          (fun t => emit_point S mirror mirror_axis
            (ring.getD ((i + (t + 1)) % (ring.length - 1)) (0, 0))) := by
        funext t
        have ht : i + 1 + t = i + (t + 1) := by omega
        rw [Nat.mod_add_mod, ht]
      rw [hfun]

theorem cyclic_ne_start (m start t : Nat) (hs : start < m) (h1 : 1 ≤ t) (h2 : t < m) :
    (start + t) % m ≠ start := by
  by_cases h : start + t < m
  · rw [Nat.mod_eq_of_lt h]; omega
  · rw [Nat.mod_eq_sub_mod (by omega), Nat.mod_eq_of_lt (by omega)]; omega

theorem copy_ring_to_toolpath_eq {F : Type} (S : Surface F) (mirror : Bool)
    (mirror_axis : Int) (ring : Ring) (start : Nat) (st : Stitch F)
    (tp : List (List (F × F))) (p : List (F × F))
    (lg : List (List (Ring × Nat))) (l : List (Ring × Nat))
    (hs : start < ring.length - 1)
    (htp : st.toolpath = tp ++ [p]) (hlg : st.log = lg ++ [l]) :
    copy_ring_to_toolpath S mirror mirror_axis ring start st =
      some { toolpath := tp ++ [p ++ (ring_from ring start).map
                                  (emit_point S mirror mirror_axis)]
             last_point := ring.getD start (0, 0)
             log := lg ++ [l ++ [(ring, start)]] } := by
  have hm : 0 < ring.length - 1 := by omega
  have hrun := copy_ring_loop_run S mirror mirror_axis ring start hm (ring.length - 1)
    ring.length start tp p (by omega) hm hs
    (fun t h1 h2 => cyclic_ne_start _ _ _ hs h1 h2)
    (by rw [Nat.add_mod_right]; exact Nat.mod_eq_of_lt hs)
  unfold copy_ring_to_toolpath
  rw [htp, hrun]
  simp only [getElem?_eq_getD (show start < ring.length by omega), hlg, push_point,
    push_to_back_append, ring_from, List.map_append, List.map_map, List.map_cons, List.map_nil,
    List.append_assoc]
  rfl

end Pcb2gcode

namespace Pcb2gcode

theorem closest_scan_not_last (last_point : Point) (d0 : Int) (q : Point)
    (hq : comparable_distance q last_point = d0) :
    ∀ (ps : List Point) (i : Nat) (m : Int) (idx : Nat),
      idx < i → m ≤ d0 → ps.getLast? = some q →
      closest_scan last_point ps i m idx < i + ps.length - 1 := by
  intro ps
  induction ps with
  | nil => intro i m idx _ _ h; simp at h
  | cons p ps ih =>
    intro i m idx hidx hm hlast
    cases ps with
    | nil =>
      simp only [List.getLast?_singleton, Option.some.injEq] at hlast
      subst hlast
      unfold closest_scan
      rw [if_neg (by omega)]
      simp only [closest_scan, List.length_singleton]
      omega
    | cons p' rest =>
      have hlast' : (p' :: rest).getLast? = some q := by
        rw [List.getLast?_cons_cons] at hlast; exact hlast
      unfold closest_scan
      by_cases hc : comparable_distance p last_point < m
      · rw [if_pos hc]
        have := ih (i + 1) (comparable_distance p last_point) i (by omega) (by omega) hlast'
        simp only [List.length_cons] at this ⊢
        omega
      · rw [if_neg hc]
        have := ih (i + 1) m idx (by omega) hm hlast'
        simp only [List.length_cons] at this ⊢
        omega

theorem find_closest_closed (ring : Ring) (last_point : Point) (h : closed_ring ring) :
    ∃ s, find_closest_point_index ring last_point = some s ∧ s < ring.length - 1 := by
  obtain ⟨h2, hc⟩ := h
  cases ring with
  | nil => simp at h2
  | cons p ps =>
    refine ⟨_, rfl, ?_⟩
    have hps : ps.getLast? = some p := by
      cases ps with
      | nil => simp at h2
      | cons p' rest =>
        rw [List.getLast?_eq_getElem?]
        simp only [List.length_cons, Nat.add_sub_cancel, List.getElem?_cons_zero,
          List.getElem?_cons_succ] at hc ⊢
        exact hc.symm
    have := closest_scan_not_last last_point _ p rfl ps 1
      (comparable_distance p last_point) 0 (by omega) (le_refl _) hps
    simp only [List.length_cons]
    omega

theorem ring_from_zero (ring : Ring) (h : closed_ring ring) : ring_from ring 0 = ring := by
  obtain ⟨h2, hc⟩ := h
  apply List.ext_getElem?
  intro n
  unfold ring_from
  by_cases hn : n < ring.length - 1
  · rw [List.getElem?_append_left (by simpa using hn)]
    rw [List.getElem?_map, List.getElem?_range hn]
    simp only [Option.map_some', Nat.zero_add, Nat.mod_eq_of_lt hn]
    rw [getElem?_eq_getD (by omega)]
  · by_cases hn' : n = ring.length - 1
    · subst hn'
      rw [List.getElem?_append_right (by simp)]
      simp only [List.length_map, List.length_range, Nat.sub_self, List.getElem?_cons_zero]
      rw [← hc, getElem?_eq_getD (by omega)]
    · rw [List.getElem?_eq_none (by simp; omega), List.getElem?_eq_none (by omega)]

end Pcb2gcode

namespace Pcb2gcode

theorem scan_pass_spec (K : Kernel) (prev : Ring) (last_point : Point) :
    ∀ (l : List Ring) (k0 : Nat), (∀ r ∈ l, closed_ring r) →
      ∃ m, scan_pass K prev last_point l k0 = some m ∧ scan_result K prev last_point l k0 m := by
  intro l
  induction l with
  | nil => intro k0 _; exact ⟨Match.absent, rfl, fun r hr => by simp at hr⟩
  | cons r rs ih =>
    intro k0 hcl
    have hr : closed_ring r := hcl r (List.mem_cons_self _ _)
    have hrs : ∀ x ∈ rs, closed_ring x := fun x hx => hcl x (List.mem_cons_of_mem _ hx)
    obtain ⟨s, hs, hslt⟩ := find_closest_closed r last_point hr
    have hv : r[s]? = some (r.getD s (0, 0)) := getElem?_eq_getD (by omega)
    -- what happens when the head ring does not match
    have hskip : (K.equals_ring r prev = false ∧
          ∀ s v, ¬ nested_reachable K prev last_point r s v) →
        ∃ m, scan_pass K prev last_point rs (k0 + 1) = some m ∧
          scan_result K prev last_point (r :: rs) k0 m := by
      intro hno
      obtain ⟨m, hm, hres⟩ := ih (k0 + 1) hrs
      refine ⟨m, hm, ?_⟩
      cases m with
      | absent =>
        intro x hx
        rcases List.mem_cons.mp hx with rfl | hx
        · exact hno
        · exact hres x hx
      | identical k =>
        obtain ⟨j, hk, hj, hjlt, heq, hbefore⟩ := hres
        refine ⟨j + 1, by omega, ?_, by simpa using hjlt, ?_, ?_⟩
        · simpa using hj
        · simpa using heq
        · intro i hi
          cases i with
          | zero => simpa using hno
          | succ i => simpa using hbefore i (by omega)
      | nested k x sx =>
        obtain ⟨j, v, hk, hj, hnr, hlt, hvx⟩ := hres
        exact ⟨j + 1, v, by omega, by simpa using hj, hnr, hlt, hvx⟩
    unfold scan_pass
    by_cases he : K.equals_ring r prev = true
    · rw [if_pos he]
      refine ⟨_, rfl, 0, rfl, by simp, by simp, by simpa using he, ?_⟩
      intro i hi; omega
    · rw [if_neg he]
      have he' : K.equals_ring r prev = false := by simpa using he
      by_cases hc : K.covered_by r prev = true
      · rw [if_pos hc]
        simp only [hs, hv]
        by_cases hl : K.covered_by_linestring [r.getD s (0, 0), last_point] prev.reverse = true
        · rw [if_pos hl]
          exact ⟨_, rfl, 0, _, rfl, by simp, ⟨hc, hs, hv, hl⟩, hslt, rfl⟩
        · rw [if_neg hl]
          apply hskip
          refine ⟨he', ?_⟩
          rintro s' v' ⟨_, hs', hv', hl'⟩
          rw [hs] at hs'
          cases hs'
          rw [hv] at hv'
          cases hv'
          exact hl hl'
      · rw [if_neg hc]
        apply hskip
        refine ⟨he', ?_⟩
        rintro s' v' ⟨hc', _⟩
        exact hc hc'

end Pcb2gcode

namespace Pcb2gcode

theorem pool_size_cons (l : List Ring) (rest : List (List Ring)) :
    pool_size (l :: rest) = l.length + pool_size rest := by
  simp [pool_size]

theorem pool_size_append (a b : List (List Ring)) :
    pool_size (a ++ b) = pool_size a + pool_size b := by
  simp [pool_size]

theorem closed_pool_cons {l : List Ring} {rest : List (List Ring)} :
    closed_pool (l :: rest) ↔ (∀ r ∈ l, closed_ring r) ∧ closed_pool rest := by
  simp [closed_pool]

theorem closed_pool_append {a b : List (List Ring)} :
    closed_pool (a ++ b) ↔ closed_pool a ∧ closed_pool b := by
  simp only [closed_pool, List.mem_append]
  constructor
  · intro h
    exact ⟨fun l hl => h l (Or.inl hl), fun l hl => h l (Or.inr hl)⟩
  · rintro ⟨ha, hb⟩ l (hl | hl)
    · exact ha l hl
    · exact hb l hl

theorem copied_points_cons {F : Type} (S : Surface F) (mirror : Bool) (mirror_axis : Int)
    (c : Ring × Nat) (copies : List (Ring × Nat)) :
    copied_points S mirror mirror_axis (c :: copies) =
      (ring_from c.1 c.2).map (emit_point S mirror mirror_axis) ++
        copied_points S mirror mirror_axis copies := by
  simp [copied_points]

theorem chain_spec {F : Type} (K : Kernel) (S : Surface F) (mirror : Bool)
    (mirror_axis : Int) :
    ∀ (later : List (List Ring)) (prev : Ring) (st : Stitch F)
      (tp : List (List (F × F))) (p : List (F × F))
      (lg : List (List (Ring × Nat))) (l : List (Ring × Nat)),
      closed_pool later → st.toolpath = tp ++ [p] → st.log = lg ++ [l] →
      ∃ later' st' copies,
        chain K S mirror mirror_axis later prev st = some (later', st') ∧
        st'.toolpath = tp ++ [p ++ copied_points S mirror mirror_axis copies] ∧
        st'.log = lg ++ [l ++ copies] ∧
        Chained K prev st.last_point later copies later' ∧
        closed_pool later' ∧ pool_size later' ≤ pool_size later ∧
        later'.length = later.length := by
  intro later
  induction later with
  | nil =>
    intro prev st tp p lg l _ htp hlg
    exact ⟨[], st, [], rfl, by simpa [copied_points] using htp, by simpa using hlg,
      Chained.finished _ _, by simp [closed_pool], le_refl _, rfl⟩
  | cons l0 rest ih =>
    intro prev st tp p lg l hcl htp hlg
    obtain ⟨hl0, hrest⟩ := closed_pool_cons.mp hcl
    obtain ⟨m, hm, hres⟩ := scan_pass_spec K prev st.last_point l0 0 hl0
    have herase : ∀ k, ∀ r ∈ l0.eraseIdx k, closed_ring r :=
      fun k r hr => hl0 r (List.mem_of_mem_eraseIdx hr)
    have hlen : ∀ k, (l0.eraseIdx k).length ≤ l0.length :=
      fun k => (List.eraseIdx_sublist l0 k).length_le
    unfold chain
    rw [hm]
    cases m with
    | absent =>
      exact ⟨l0 :: rest, st, [], rfl, by simpa [copied_points] using htp, by simpa using hlg,
        Chained.stop _ _ _ _ hres, hcl, le_refl _, rfl⟩
    | identical k =>
      obtain ⟨j, hk, hj, _, heq, _⟩ := hres
      obtain ⟨later', st', copies, hch, htp', hlg', hchained, hcl', hsz, hln⟩ :=
        ih prev st tp p lg l hrest htp hlg
      simp only [hch]
      refine ⟨l0.eraseIdx k :: later', st', copies, rfl, htp', hlg', ?_,
        closed_pool_cons.mpr ⟨herase k, hcl'⟩, ?_, by simp [hln]⟩
      · have hk' : k = j := by omega
        subst hk'
        exact Chained.identical _ _ _ _ _ _ _ _ hj heq hchained
      · rw [pool_size_cons, pool_size_cons]
        have := hlen k
        omega
    | nested k r s =>
      obtain ⟨j, v, hk, hj, hnr, hlt, hv⟩ := hres
      have hcopy := copy_ring_to_toolpath_eq S mirror mirror_axis r s st tp p lg l hlt htp hlg
      obtain ⟨later', st', copies, hch, htp', hlg', hchained, hcl', hsz, hln⟩ :=
        ih r { toolpath := tp ++ [p ++ (ring_from r s).map (emit_point S mirror mirror_axis)]
               last_point := r.getD s (0, 0)
               log := lg ++ [l ++ [(r, s)]] } tp _ lg _ hrest rfl rfl
      simp only [hcopy, hch]
      refine ⟨l0.eraseIdx k :: later', st', (r, s) :: copies, rfl, ?_, ?_, ?_,
        closed_pool_cons.mpr ⟨herase k, hcl'⟩, ?_, by simp [hln]⟩
      · rw [htp', copied_points_cons, List.append_assoc]
      · rw [hlg', List.append_assoc]; rfl
      · have hk' : k = j := by omega
        subst hk'
        subst hv
        exact Chained.nested _ _ _ _ _ _ _ _ _ _ hj hnr hchained
      · rw [pool_size_cons, pool_size_cons]
        have := hlen k
        omega

theorem find_first_nonempty_some :
    ∀ (rings : List (List Ring)) (i : Nat), find_first_nonempty rings = some i →
      ∃ pre biggest tail post, rings = pre ++ (biggest :: tail) :: post ∧ pre.length = i ∧
        ∀ l ∈ pre, l = [] := by
  intro rings
  induction rings with
  | nil => intro i h; simp [find_first_nonempty] at h
  | cons l rest ih =>
    intro i h
    unfold find_first_nonempty at h
    cases l with
    | nil =>
      simp only [List.isEmpty_nil, if_true, Option.map_eq_some'] at h
      obtain ⟨i', hi', rfl⟩ := h
      obtain ⟨pre, biggest, tail, post, hr, hlen, hpre⟩ := ih i' hi'
      refine ⟨[] :: pre, biggest, tail, post, by rw [hr]; rfl, by simp [hlen], ?_⟩
      intro x hx
      rcases List.mem_cons.mp hx with rfl | hx
      · rfl
      · exact hpre x hx
    | cons b t =>
      simp only [List.isEmpty_cons, Bool.false_eq_true, if_false, Option.some.injEq] at h
      subst h
      exact ⟨[], b, t, rest, rfl, rfl, fun x hx => by simp at hx⟩

theorem find_first_nonempty_none :
    ∀ (rings : List (List Ring)), find_first_nonempty rings = none → pool_size rings = 0 := by
  intro rings
  induction rings with
  | nil => intro _; rfl
  | cons l rest ih =>
    intro h
    unfold find_first_nonempty at h
    cases l with
    | nil =>
      simp only [List.isEmpty_nil, if_true, Option.map_eq_none'] at h
      rw [pool_size_cons, ih h]; rfl
    | cons b t => simp at h

theorem pool_size_empties (pre : List (List Ring)) (h : ∀ l ∈ pre, l = []) :
    pool_size pre = 0 := by
  induction pre with
  | nil => rfl
  | cons a t ih =>
    rw [pool_size_cons, h a (List.mem_cons_self _ _),
      ih (fun l hl => h l (List.mem_cons_of_mem _ hl))]
    rfl

theorem stitch_step_spec {F : Type} (K : Kernel) (S : Surface F) (mirror : Bool)
    (mirror_axis : Int) (rings : List (List Ring)) (i : Nat) (st : Stitch F)
    (hcl : closed_pool rings) (hfirst : find_first_nonempty rings = some i) :
    ∃ pre biggest tail post later' st' copies,
      rings = pre ++ (biggest :: tail) :: post ∧ pre.length = i ∧ (∀ l ∈ pre, l = []) ∧
      stitch_step K S mirror mirror_axis rings i st = some (pre ++ tail :: later', st') ∧
      st'.toolpath = st.toolpath ++
        [copied_points S mirror mirror_axis ((biggest, 0) :: copies)] ∧
      st'.log = st.log ++ [(biggest, 0) :: copies] ∧
      Chained K biggest (biggest.getD 0 (0, 0)) post copies later' ∧
      closed_pool (pre ++ tail :: later') ∧
      pool_size (pre ++ tail :: later') < pool_size rings ∧
      (pre ++ tail :: later').length = rings.length := by
  obtain ⟨pre, biggest, tail, post, hr, hlen, hpre⟩ := find_first_nonempty_some rings i hfirst
  subst hr
  obtain ⟨hclpre, hclrest⟩ := closed_pool_append.mp hcl
  obtain ⟨hclbt, hclpost⟩ := closed_pool_cons.mp hclrest
  have hbig : closed_ring biggest := hclbt biggest (List.mem_cons_self _ _)
  have hget : (pre ++ (biggest :: tail) :: post)[i]? = some (biggest :: tail) := by
    rw [List.getElem?_append_right (by omega)]
    simp [hlen]
  have hdrop : (pre ++ (biggest :: tail) :: post).drop (i + 1) = post := by
    rw [← hlen, List.drop_append]
    rfl
  have htake : (pre ++ (biggest :: tail) :: post).take i = pre := by
    rw [← hlen, List.take_left]
  have hcopy := copy_ring_to_toolpath_eq S mirror mirror_axis biggest 0
    { st with toolpath := st.toolpath ++ [[]], log := st.log ++ [[]] }
    st.toolpath [] st.log [] (by have := hbig.1; omega) rfl rfl
  obtain ⟨later', st', copies, hch, htp', hlg', hchained, hcl', hsz, hln⟩ :=
    chain_spec K S mirror mirror_axis post biggest
      { toolpath := st.toolpath ++ [[] ++ (ring_from biggest 0).map
          (emit_point S mirror mirror_axis)]
        last_point := biggest.getD 0 (0, 0)
        log := st.log ++ [[] ++ [(biggest, 0)]] } st.toolpath _ st.log _ hclpost rfl rfl
  refine ⟨pre, biggest, tail, post, later', st', copies, rfl, hlen, hpre, ?_, ?_, ?_,
    hchained, ?_, ?_, ?_⟩
  · unfold stitch_step
    rw [hget]
    simp only [hcopy, hdrop, hch, htake]
  · rw [htp', copied_points_cons]; rfl
  · rw [hlg']; rfl
  · refine closed_pool_append.mpr ⟨hclpre, closed_pool_cons.mpr ⟨?_, hcl'⟩⟩
    exact fun r hr => hclbt r (List.mem_cons_of_mem _ hr)
  · simp only [pool_size_append, pool_size_cons, List.length_cons]
    omega
  · simp [hln]

theorem stitch_loop_spec {F : Type} (K : Kernel) (S : Surface F) (mirror : Bool)
    (mirror_axis : Int) :
    ∀ (fuel : Nat) (rings : List (List Ring)) (st : Stitch F),
      pool_size rings < fuel → closed_pool rings →
      ∃ rings' st' extra extralog,
        stitch_loop K S mirror mirror_axis fuel rings st = some (rings', st') ∧
        st'.toolpath = st.toolpath ++ extra ∧ st'.log = st.log ++ extralog ∧
        pool_size rings' = 0 ∧ rings'.length = rings.length ∧
        extra.length = extralog.length := by
  intro fuel
  induction fuel with
  | zero => intro _ _ h; omega
  | succ fuel ih =>
    intro rings st hfuel hcl
    unfold stitch_loop
    cases hfirst : find_first_nonempty rings with
    | none =>
      exact ⟨rings, st, [], [], rfl, by simp, by simp,
        find_first_nonempty_none rings hfirst, rfl, rfl⟩
    | some i =>
      obtain ⟨pre, biggest, tail, post, later', st1, copies, _, _, _, hstep, htp1, hlg1, _,
        hcl1, hsz1, hln1⟩ := stitch_step_spec K S mirror mirror_axis rings i st hcl hfirst
      obtain ⟨rings', st', extra, extralog, hloop, htp', hlg', hsz', hln', hex⟩ :=
        ih (pre ++ tail :: later') st1 (by omega) hcl1
      simp only [hstep, hloop]
      refine ⟨rings', st', copied_points S mirror mirror_axis ((biggest, 0) :: copies) :: extra,
        ((biggest, 0) :: copies) :: extralog, rfl, ?_, ?_, hsz', by omega, by simp [hex]⟩
      · rw [htp', htp1, List.append_assoc]; rfl
      · rw [hlg', hlg1, List.append_assoc]; rfl

end Pcb2gcode

namespace Pcb2gcode

theorem pass_body_first {F : Type} (K : Kernel) (S : Surface F) (input voronoi : MultiPolygon)
    (offset : Int) (index : Nat) (mirror : Bool) (mirror_axis : Int)
    (P : Nat → Polygon) (C : Nat → Bool) (toolpath : List (List (F × F))) (contentions : Bool)
    (hP : pass_polygon K S input voronoi offset index 0 = some (P 0, C 0))
    (hO : closed_ring (P 0).outer) :
    ∃ b, pass_body K S input voronoi offset index mirror mirror_axis 0
        (initial_passes toolpath contentions) = some b ∧
      pass_invariant K S mirror mirror_axis P C toolpath contentions 1 b := by
  have hcopy := copy_ring_to_toolpath_eq S mirror mirror_axis (P 0).outer 0
    (initial_passes toolpath contentions).st toolpath [] (toolpath.map (fun _ => [])) []
    (by have := hO.1; omega) rfl rfl
  have hr1 : List.range 1 = [0] := rfl
  unfold pass_body emit_outer
  simp only [hP, if_true, hcopy]
  refine ⟨_, rfl, ?_, ?_, ?_, 1, [((P 0).outer, 0)], le_refl _, le_refl _, ?_, ?_, ?_, ?_, ?_,
    rfl, ?_, rfl⟩
  · simp [initial_passes, hr1]
  · simp [initial_passes, hr1]
  · simp [initial_passes, hr1]
  · intro j h1 h2; omega
  · intro h; omega
  · simp [initial_passes]
  · simp [copied_points]
  · simp
  · simp [hr1]

theorem pass_body_next {F : Type} (K : Kernel) (S : Surface F) (input voronoi : MultiPolygon)
    (offset : Int) (index : Nat) (mirror : Bool) (mirror_axis : Int)
    (P : Nat → Polygon) (C : Nat → Bool) (toolpath : List (List (F × F))) (contentions : Bool)
    (i : Nat) (a : Passes F) (hi : 1 ≤ i)
    (hP : pass_polygon K S input voronoi offset index i = some (P i, C i))
    (hO : closed_ring (P i).outer)
    (hinv : pass_invariant K S mirror mirror_axis P C toolpath contentions i a) :
    ∃ b, pass_body K S input voronoi offset index mirror mirror_axis i a = some b ∧
      pass_invariant K S mirror mirror_axis P C toolpath contentions (i + 1) b := by
  obtain ⟨hpoly, hrings, hcont, k, cs, hk1, hki, hbefore, hat, hcoll, htp, hlg, hlen, hfst,
    hhead⟩ := hinv
  have hprev : a.polygons[i - 1]? = some (P (i - 1)) := by
    rw [hpoly, List.getElem?_map, List.getElem?_range (by omega)]
    rfl
  have hpoly' : a.polygons ++ [P i] = (List.range (i + 1)).map P := by
    rw [hpoly, List.range_succ, List.map_append]; rfl
  have hrings' : a.rings ++ [(P i).inners] =
      (List.range (i + 1)).map (fun j => (P j).inners) := by
    rw [hrings, List.range_succ, List.map_append]; rfl
  have hcont' : (a.contentions || C i) = (contentions || (List.range (i + 1)).any C) := by
    rw [hcont, List.range_succ, List.any_append]
    simp [Bool.or_assoc]
  have hi0 : ¬ i = 0 := by omega
  unfold pass_body emit_outer
  simp only [hP, if_neg hi0, hprev]
  by_cases hc : (a.outer_collapsed || K.equals_ring (P i).outer (P (i - 1)).outer) = true
  · rw [if_pos hc]
    refine ⟨_, rfl, hpoly', hrings', hcont', k, cs, hk1, by omega, hbefore, ?_, ?_, htp, hlg,
      hlen, hfst, hhead⟩
    · intro _
      by_cases hlt : k < i
      · exact hat hlt
      · have hkeq : k = i := by omega
        rw [hcoll] at hc
        simpa [hkeq] using hc
    · have : k < i + 1 := by omega
      simp [this]
  · rw [if_neg hc]
    have hc' : a.outer_collapsed = false ∧
        K.equals_ring (P i).outer (P (i - 1)).outer = false := by
      simpa using hc
    have hkeq : k = i := by
      by_contra hne
      have hlt : k < i := by omega
      rw [hcoll] at hc'
      simp [hlt] at hc'
    obtain ⟨s, hs, hslt⟩ := find_closest_closed (P i).outer a.st.last_point hO
    have hcopy := copy_ring_to_toolpath_eq S mirror mirror_axis (P i).outer s a.st toolpath _
      (toolpath.map (fun _ => [])) cs hslt htp hlg
    simp only [hs, hcopy]
    refine ⟨_, rfl, hpoly', hrings', hcont', i + 1, cs ++ [((P i).outer, s)], by omega,
      le_refl _, ?_, ?_, ?_, ?_, rfl, ?_, ?_, ?_⟩
    · intro j h1 h2
      by_cases hj : j < k
      · exact hbefore j h1 hj
      · have : j = i := by omega
        subst this
        exact hc'.2
    · intro h; omega
    · simp
    · simp [copied_points]
    · simp [hlen, hkeq]
    · rw [List.map_append, hfst, hkeq, List.range_succ, List.map_append]; rfl
    · cases cs with
      | nil => simp at hlen; omega
      | cons c t => simpa using hhead

theorem pass_loop_spec {F : Type} (K : Kernel) (S : Surface F) (input voronoi : MultiPolygon)
    (offset : Int) (index : Nat) (mirror : Bool) (mirror_axis : Int)
    (P : Nat → Polygon) (C : Nat → Bool) (toolpath : List (List (F × F))) (contentions : Bool)
    (total : Nat)
    (hP : ∀ i, i < total → pass_polygon K S input voronoi offset index i = some (P i, C i))
    (hO : ∀ i, i < total → closed_ring (P i).outer) :
    ∀ (n i : Nat) (a : Passes F), 1 ≤ i → i + n = total →
      pass_invariant K S mirror mirror_axis P C toolpath contentions i a →
      ∃ b, pass_loop K S input voronoi offset index mirror mirror_axis n i a = some b ∧
        pass_invariant K S mirror mirror_axis P C toolpath contentions total b := by
  intro n
  induction n with
  | zero =>
    intro i a _ hin hinv
    have : i = total := by omega
    subst this
    exact ⟨a, rfl, hinv⟩
  | succ n ih =>
    intro i a hi hin hinv
    obtain ⟨b, hb, hinvb⟩ := pass_body_next K S input voronoi offset index mirror mirror_axis
      P C toolpath contentions i a hi (hP i (by omega)) (hO i (by omega)) hinv
    obtain ⟨c, hc, hinvc⟩ := ih (i + 1) b (by omega) (by omega) hinvb
    exact ⟨c, by unfold pass_loop; simp only [hb, hc], hinvc⟩

/-- The result of `offset_polygon` when every pass polygon exists and has closed rings. -/
theorem offset_polygon_spec {F : Type} (K : Kernel) (S : Surface F)
    (input voronoi : MultiPolygon) (toolpath : List (List (F × F))) (contentions : Bool)
    (offset : Int) (index steps : Nat) (mirror : Bool) (mirror_axis : Int)
    (P : Nat → Polygon) (C : Nat → Bool) (hsteps : 1 ≤ pass_count offset steps)
    (hP : ∀ i, i < pass_count offset steps →
      pass_polygon K S input voronoi offset index i = some (P i, C i))
    (hO : ∀ i, i < pass_count offset steps → closed_ring (P i).outer)
    (hI : ∀ i, i < pass_count offset steps → ∀ r ∈ (P i).inners, closed_ring r) :
    ∃ res a extra extralog,
      offset_polygon K S input voronoi toolpath contentions offset index steps mirror
        mirror_axis = some res ∧
      pass_invariant K S mirror mirror_axis P C toolpath contentions
        (pass_count offset steps) a ∧
      res.polygons = a.polygons ∧ res.contentions = a.contentions ∧
      res.toolpath = a.st.toolpath ++ extra ∧ res.log = a.st.log ++ extralog ∧
      pool_size res.rings = 0 := by
  obtain ⟨b, hb, hinvb⟩ := pass_body_first K S input voronoi offset index mirror mirror_axis
    P C toolpath contentions (hP 0 (by omega)) (hO 0 (by omega))
  obtain ⟨n, hn⟩ : ∃ n, pass_count offset steps = n + 1 := ⟨pass_count offset steps - 1, by omega⟩
  obtain ⟨a, ha, hinva⟩ := pass_loop_spec K S input voronoi offset index mirror mirror_axis
    P C toolpath contentions (pass_count offset steps) hP hO n 1 b (le_refl _) (by omega) hinvb
  have hloop : pass_loop K S input voronoi offset index mirror mirror_axis
      (pass_count offset steps) 0 (initial_passes toolpath contentions) = some a := by
    rw [hn]
    unfold pass_loop
    simp only [hb]
    exact ha
  have hcl : closed_pool a.rings := by
    intro l hl r hr
    rw [hinva.2.1] at hl
    obtain ⟨j, hj, rfl⟩ := List.mem_map.mp hl
    exact hI j (List.mem_range.mp hj) r hr
  obtain ⟨rings', st', extra, extralog, hst, htp, hlg, hsz, _, _⟩ :=
    stitch_loop_spec K S mirror mirror_axis (pool_size a.rings + 1) a.rings a.st
      (by omega) hcl
  refine ⟨{ polygons := a.polygons, toolpath := st'.toolpath, contentions := a.contentions,
            log := st'.log, rings := rings' }, a, extra, extralog, ?_, hinva, rfl, rfl, htp, hlg,
    hsz⟩
  unfold offset_polygon
  simp only [hloop, hst]

end Pcb2gcode

namespace Pcb2gcode

theorem max_element_from_spec {α : Type} (area : α → Int) (l : List α) :
    ∀ (xs pre : List α) (largest : α) (best : Nat),
      pre ++ xs = l → l[best]? = some largest → (∀ r ∈ pre, area r ≤ area largest) →
      ∃ top, l[max_element_from area xs pre.length largest best]? = some top ∧
        ∀ r ∈ l, area r ≤ area top := by
  intro xs
  induction xs with
  | nil =>
    intro pre largest best hl hbest hpre
    simp only [List.append_nil] at hl
    subst hl
    exact ⟨largest, hbest, hpre⟩
  | cons x xs ih =>
    intro pre largest best hl hbest hpre
    have hl' : (pre ++ [x]) ++ xs = l := by simpa using hl
    have hx : l[pre.length]? = some x := by
      rw [← hl, List.getElem?_append_right (le_refl _)]; simp
    have hlen : (pre ++ [x]).length = pre.length + 1 := by simp
    unfold max_element_from
    by_cases hc : area largest < area x
    · rw [if_pos hc, ← hlen]
      apply ih (pre ++ [x]) x pre.length hl' hx
      intro r hr
      rcases List.mem_append.mp hr with hr | hr
      · have := hpre r hr; omega
      · simp only [List.mem_singleton] at hr; subst hr; exact le_refl _
    · rw [if_neg hc, ← hlen]
      apply ih (pre ++ [x]) largest best hl' hbest
      intro r hr
      rcases List.mem_append.mp hr with hr | hr
      · exact hpre r hr
      · simp only [List.mem_singleton] at hr; subst hr; omega

theorem max_element_spec {α : Type} (area : α → Int) (r : α) (rs : List α) :
    ∃ top, (r :: rs)[max_element area (r :: rs)]? = some top ∧
      ∀ x ∈ r :: rs, area x ≤ area top := by
  have := max_element_from_spec area (r :: rs) rs [r] r 0 rfl
    (List.getElem?_cons_zero) (fun x hx => by
      simp only [List.mem_singleton] at hx; subst hx; exact le_refl _)
  simpa [max_element] using this

theorem perm_cons_eraseIdx {α : Type} :
    ∀ (l : List α) (i : Nat) (a : α), l[i]? = some a → l.Perm (a :: l.eraseIdx i) := by
  intro l
  induction l with
  | nil => intro i a h; simp at h
  | cons x xs ih =>
    intro i a h
    cases i with
    | zero =>
      simp only [List.getElem?_cons_zero, Option.some.injEq] at h
      subst h
      exact List.Perm.refl _
    | succ i =>
      simp only [List.getElem?_cons_succ] at h
      simp only [List.eraseIdx_cons_succ]
      exact ((ih i a h).cons x).trans (List.Perm.swap a x _)

theorem joins_group_iff {α : Type} [DecidableEq α] (covered_by : α → α → Bool) (biggest : α)
    (rest : List α) (i : α) :
    joins_group covered_by biggest rest i = true ↔
      covered_by i biggest = true ∧ ∀ j ∈ rest, j ≠ i → covered_by i j = false := by
  simp only [joins_group, Bool.and_eq_true, Bool.not_eq_true', List.any_eq_false,
    decide_eq_true_eq, not_and, Bool.not_eq_true]
  constructor
  · rintro ⟨h1, h2⟩
    exact ⟨h1, fun j hj hne => h2 j hj (fun h => hne h.symm)⟩
  · rintro ⟨h1, h2⟩
    exact ⟨h1, fun j hj hne => h2 j hj (fun h => hne h.symm)⟩

theorem group_rings_loop_spec {α : Type} [DecidableEq α] (area : α → Int)
    (covered_by : α → α → Bool) :
    ∀ (fuel : Nat) (rings : List α) (grouped : List (α × List α)), rings.length ≤ fuel →
      ∃ groups, group_rings_loop area covered_by fuel rings grouped = some (grouped ++ groups) ∧
        Grouped area covered_by rings groups := by
  intro fuel
  induction fuel with
  | zero =>
    intro rings grouped h
    cases rings with
    | nil => exact ⟨[], by simp [group_rings_loop], Grouped.done⟩
    | cons r rs => simp at h
  | succ fuel ih =>
    intro rings grouped h
    cases rings with
    | nil => exact ⟨[], by simp [group_rings_loop], Grouped.done⟩
    | cons r rs =>
      obtain ⟨top, htop, hmax⟩ := max_element_spec area r rs
      have hperm := perm_cons_eraseIdx (r :: rs) _ top htop
      have hlen : ((r :: rs).eraseIdx (max_element area (r :: rs))).length ≤ fuel := by
        have := hperm.length_eq
        simp only [List.length_cons] at this h
        omega
      obtain ⟨groups, hgroups, hspec⟩ := ih
        (((r :: rs).eraseIdx (max_element area (r :: rs))).filter
          (fun i => !joins_group covered_by top
            ((r :: rs).eraseIdx (max_element area (r :: rs))) i))
        (grouped ++ [(top, ((r :: rs).eraseIdx (max_element area (r :: rs))).filter
            (joins_group covered_by top
              ((r :: rs).eraseIdx (max_element area (r :: rs)))))])
        (le_trans (List.length_filter_le _ _) hlen)
      refine ⟨(top, ((r :: rs).eraseIdx (max_element area (r :: rs))).filter
            (joins_group covered_by top
              ((r :: rs).eraseIdx (max_element area (r :: rs))))) :: groups, ?_,
        Grouped.group (r :: rs) _ _ top _ groups hperm hmax ?_ ?_ hspec⟩
      · unfold group_rings_loop
        simp only [htop, hgroups, List.append_assoc, List.singleton_append]
      · intro x
        rw [List.mem_filter, joins_group_iff]
      · intro x
        simp only [List.mem_filter, Bool.not_eq_true', not_and, Bool.not_eq_true]
        constructor
        · rintro ⟨h1, h2⟩
          exact ⟨h1, fun _ => h2⟩
        · rintro ⟨h1, h2⟩
          exact ⟨h1, h2 h1⟩

theorem Grouped.top_mem {α : Type} {area : α → Int} {covered_by : α → α → Bool}
    {rings : List α} {groups : List (α × List α)} (h : Grouped area covered_by rings groups) :
    ∀ g ∈ groups, g.1 ∈ rings := by
  induction h with
  | done => intro g hg; simp at hg
  | group rings rest remaining top holes groups hperm _ _ hrem _ ih =>
    intro g hg
    rcases List.mem_cons.mp hg with rfl | hg
    · exact hperm.symm.subset (List.mem_cons_self _ _)
    · exact hperm.symm.subset (List.mem_cons_of_mem _ ((hrem _).mp (ih g hg)).1)

theorem Grouped.tops_sorted {α : Type} {area : α → Int} {covered_by : α → α → Bool}
    {rings : List α} {groups : List (α × List α)} (h : Grouped area covered_by rings groups) :
    groups.Pairwise (fun g g' => area g'.1 ≤ area g.1) := by
  induction h with
  | done => exact List.Pairwise.nil
  | group rings rest remaining top holes groups hperm hmax _ hrem hrest ih =>
    refine List.Pairwise.cons ?_ ih
    intro g hg
    exact hmax _ (hperm.symm.subset (List.mem_cons_of_mem _ ((hrem _).mp (hrest.top_mem g hg)).1))

end Pcb2gcode

namespace Pcb2gcode

theorem getD_of_getElem? {ring : Ring} {s : Nat} {v : Point} (h : ring[s]? = some v) :
    ring.getD s (0, 0) = v := by
  simp [List.getD, h]

theorem Chained.steps {K : Kernel} {prev : Ring} {last_point : Point}
    {later : List (List Ring)} {copies : List (Ring × Nat)} {later' : List (List Ring)}
    (h : Chained K prev last_point later copies later') :
    ∀ s0, last_point = prev.getD s0 (0, 0) → List.Chain (nested_step K) (prev, s0) copies := by
  induction h with
  | finished => intro _ _; exact List.Chain.nil
  | stop => intro _ _; exact List.Chain.nil
  | identical prev last_point l rest k r copies rest' _ _ _ ih => exact ih
  | nested prev last_point l rest k r s v copies rest' _ hnr _ ih =>
    intro s0 hs0
    obtain ⟨hc, hf, hv, hl⟩ := hnr
    have hv' := getD_of_getElem? hv
    refine List.Chain.cons ⟨hc, ?_, ?_⟩ (ih s hv'.symm)
    · rw [← hs0]; exact hf
    · show K.covered_by_linestring [r.getD s (0, 0), prev.getD s0 (0, 0)] prev.reverse = true
      rw [hv', ← hs0]; exact hl

theorem Chained.passes {K : Kernel} {prev : Ring} {last_point : Point}
    {later : List (List Ring)} {copies : List (Ring × Nat)} {later' : List (List Ring)}
    (h : Chained K prev last_point later copies later') :
    ∃ passes : List Nat, passes.Pairwise (· < ·) ∧
      List.Forall₂ (fun q c => ∃ l, later[q]? = some l ∧ c.1 ∈ l) passes copies := by
  induction h with
  | finished => exact ⟨[], List.Pairwise.nil, List.Forall₂.nil⟩
  | stop => exact ⟨[], List.Pairwise.nil, List.Forall₂.nil⟩
  | identical prev last_point l rest k r copies rest' _ _ _ ih =>
    obtain ⟨passes, hp, hf⟩ := ih
    refine ⟨passes.map (· + 1), ?_, ?_⟩
    · rw [List.pairwise_map]
      exact hp.imp (fun h => by omega)
    · rw [List.forall₂_map_left_iff]
      exact hf.imp (fun q c h => by simpa using h)
  | nested prev last_point l rest k r s v copies rest' hk _ _ ih =>
    obtain ⟨passes, hp, hf⟩ := ih
    refine ⟨0 :: passes.map (· + 1), ?_, ?_⟩
    · refine List.Pairwise.cons ?_ ?_
      · intro q hq
        obtain ⟨q', _, rfl⟩ := List.mem_map.mp hq
        omega
      · rw [List.pairwise_map]
        exact hp.imp (fun h => by omega)
    · refine List.Forall₂.cons ⟨l, by simp, List.mem_iff_getElem?.mpr ⟨k, hk⟩⟩ ?_
      rw [List.forall₂_map_left_iff]
      exact hf.imp (fun q c h => by simpa using h)

theorem scan_pass_identical (K : Kernel) (prev : Ring) (last_point : Point) (r : Ring)
    (post : List Ring) (heq : K.equals_ring r prev = true) :
    ∀ (pre : List Ring) (k0 : Nat),
      (∀ x ∈ pre, closed_ring x ∧ K.equals_ring x prev = false ∧
        ∀ s v, ¬ nested_reachable K prev last_point x s v) →
      scan_pass K prev last_point (pre ++ r :: post) k0 =
        some (Match.identical (k0 + pre.length)) := by
  intro pre
  induction pre with
  | nil =>
    intro k0 _
    simp [scan_pass, heq]
  | cons x pre ih =>
    intro k0 hpre
    obtain ⟨hcl, hne, hnr⟩ := hpre x (List.mem_cons_self _ _)
    have hrec := ih (k0 + 1) (fun y hy => hpre y (List.mem_cons_of_mem _ hy))
    have hidx : k0 + 1 + pre.length = k0 + (x :: pre).length := by
      simp only [List.length_cons]; omega
    obtain ⟨s, hs, hslt⟩ := find_closest_closed x last_point hcl
    have hv : x[s]? = some (x.getD s (0, 0)) := getElem?_eq_getD (by omega)
    show scan_pass K prev last_point (x :: (pre ++ r :: post)) k0 = _
    unfold scan_pass
    rw [if_neg (by simp [hne])]
    by_cases hc : K.covered_by x prev = true
    · rw [if_pos hc]
      simp only [hs, hv]
      rw [if_neg (fun hl => hnr s _ ⟨hc, hs, hv, hl⟩), hrec, hidx]
    · rw [if_neg hc, hrec, hidx]

end Pcb2gcode

namespace Pcb2gcode

theorem copy_ring_loop_never {F : Type} (S : Surface F) (mirror : Bool) (mirror_axis : Int)
    (ring : Ring) (h2 : 2 ≤ ring.length) :
    ∀ (fuel i : Nat) (tp : List (List (F × F))), i < ring.length - 1 →
      copy_ring_loop S mirror mirror_axis ring (ring.length - 1) fuel i tp = none := by
  intro fuel
  induction fuel with
  | zero => intro i tp _; rfl
  | succ fuel ih =>
    intro i tp hi
    have hget : ring[i]? = some (ring.getD i (0, 0)) := getElem?_eq_getD (by omega)
    have hlt : (i + 1) % (ring.length - 1) < ring.length - 1 := Nat.mod_lt _ (by omega)
    unfold copy_ring_loop
    simp only [hget]
    rw [if_neg (by omega), if_pos (by omega)]
    exact ih _ _ hlt

theorem copy_ring_loop_last_never {F : Type} (S : Surface F) (mirror : Bool)
    (mirror_axis : Int) (ring : Ring) (h2 : 2 ≤ ring.length) (fuel : Nat)
    (tp : List (List (F × F))) :
    copy_ring_loop S mirror mirror_axis ring (ring.length - 1) fuel (ring.length - 1) tp =
      none := by
  cases fuel with
  | zero => rfl
  | succ fuel =>
    have hget : ring[ring.length - 1]? = some (ring.getD (ring.length - 1) (0, 0)) :=
      getElem?_eq_getD (by omega)
    have hlt : (ring.length - 1 + 1) % (ring.length - 1) < ring.length - 1 :=
      Nat.mod_lt _ (by omega)
    unfold copy_ring_loop
    simp only [hget]
    rw [if_neg (by omega), if_pos (by omega)]
    exact copy_ring_loop_never S mirror mirror_axis ring h2 fuel _ _ hlt

theorem ring_from_length (ring : Ring) (start : Nat) (h : 1 ≤ ring.length) :
    (ring_from ring start).length = ring.length := by
  simp only [ring_from, List.length_append, List.length_map, List.length_range,
    List.length_singleton]
  omega

theorem closest_scan_spec (last_point : Point) (ring : Ring) :
    ∀ (ps pre : List Point) (m : Int) (idx : Nat),
      pre ++ ps = ring → idx < pre.length →
      m = comparable_distance (ring.getD idx (0, 0)) last_point →
      (∀ j, j < pre.length → m ≤ comparable_distance (ring.getD j (0, 0)) last_point) →
      (∀ j, j < idx → m < comparable_distance (ring.getD j (0, 0)) last_point) →
      closest_scan last_point ps pre.length m idx < ring.length ∧
      (∀ j, j < ring.length →
        comparable_distance (ring.getD (closest_scan last_point ps pre.length m idx) (0, 0))
            last_point ≤ comparable_distance (ring.getD j (0, 0)) last_point) ∧
      (∀ j, j < closest_scan last_point ps pre.length m idx →
        comparable_distance (ring.getD (closest_scan last_point ps pre.length m idx) (0, 0))
            last_point < comparable_distance (ring.getD j (0, 0)) last_point) := by
  intro ps
  induction ps with
  | nil =>
    intro pre m idx hring hidx hm hall hbefore
    simp only [List.append_nil] at hring
    subst hring
    simp only [closest_scan]
    rw [← hm]
    exact ⟨hidx, hall, hbefore⟩
  | cons p ps ih =>
    intro pre m idx hring hidx hm hall hbefore
    have hring' : (pre ++ [p]) ++ ps = ring := by simpa using hring
    have hlen : (pre ++ [p]).length = pre.length + 1 := by simp
    have hp : ring.getD pre.length (0, 0) = p := by
      rw [← hring]
      simp [List.getD, List.getElem?_append_right (le_refl pre.length)]
    unfold closest_scan
    by_cases hc : comparable_distance p last_point < m
    · rw [if_pos hc, ← hlen]
      apply ih (pre ++ [p]) _ pre.length hring' (by omega) (by rw [hp])
      · intro j hj
        by_cases hjl : j < pre.length
        · have := hall j hjl; omega
        · have : j = pre.length := by omega
          subst this
          rw [hp]
      · intro j hj
        have := hall j hj; omega
    · rw [if_neg hc, ← hlen]
      apply ih (pre ++ [p]) m idx hring' (by omega) hm
      · intro j hj
        by_cases hjl : j < pre.length
        · exact hall j hjl
        · have : j = pre.length := by omega
          subst this
          rw [hp]; omega
      · exact hbefore

theorem find_closest_point_index_spec (ring : Ring) (last_point : Point) (h : ring ≠ []) :
    ∃ s, find_closest_point_index ring last_point = some s ∧ s < ring.length ∧
      (∀ j, j < ring.length →
        comparable_distance (ring.getD s (0, 0)) last_point ≤
          comparable_distance (ring.getD j (0, 0)) last_point) ∧
      (∀ j, j < s →
        comparable_distance (ring.getD s (0, 0)) last_point <
          comparable_distance (ring.getD j (0, 0)) last_point) := by
  cases ring with
  | nil => exact absurd rfl h
  | cons p ps =>
    have := closest_scan_spec last_point (p :: ps) ps [p]
      (comparable_distance p last_point) 0 rfl (by simp) (by simp)
      (fun j hj => by
        have : j = 0 := by simpa using hj
        subst this
        simp)
      (fun j hj => by omega)
    exact ⟨_, rfl, this⟩

end Pcb2gcode

namespace Pcb2gcode

theorem extend_extent_min_x (b l : Extent) :
    (extend_extent b l).min_x ≤ b.min_x ∧ (extend_extent b l).min_x ≤ l.min_x ∧
      ((extend_extent b l).min_x = b.min_x ∨ (extend_extent b l).min_x = l.min_x) := by
  simp only [extend_extent]
  split
  · exact ⟨le_of_lt ‹_›, le_refl _, Or.inr rfl⟩
  · exact ⟨le_refl _, not_lt.mp ‹_›, Or.inl rfl⟩

theorem extend_extent_max_x (b l : Extent) :
    b.max_x ≤ (extend_extent b l).max_x ∧ l.max_x ≤ (extend_extent b l).max_x ∧
      ((extend_extent b l).max_x = b.max_x ∨ (extend_extent b l).max_x = l.max_x) := by
  simp only [extend_extent]
  split
  · exact ⟨le_of_lt ‹_›, le_refl _, Or.inr rfl⟩
  · exact ⟨le_refl _, not_lt.mp ‹_›, Or.inl rfl⟩

theorem extend_extent_min_y (b l : Extent) :
    (extend_extent b l).min_y ≤ b.min_y ∧ (extend_extent b l).min_y ≤ l.min_y ∧
      ((extend_extent b l).min_y = b.min_y ∨ (extend_extent b l).min_y = l.min_y) := by
  simp only [extend_extent]
  split
  · exact ⟨le_of_lt ‹_›, le_refl _, Or.inr rfl⟩
  · exact ⟨le_refl _, not_lt.mp ‹_›, Or.inl rfl⟩

theorem extend_extent_max_y (b l : Extent) :
    b.max_y ≤ (extend_extent b l).max_y ∧ l.max_y ≤ (extend_extent b l).max_y ∧
      ((extend_extent b l).max_y = b.max_y ∨ (extend_extent b l).max_y = l.max_y) := by
  simp only [extend_extent]
  split
  · exact ⟨le_of_lt ‹_›, le_refl _, Or.inr rfl⟩
  · exact ⟨le_refl _, not_lt.mp ‹_›, Or.inl rfl⟩

theorem room_needed_spec :
    ∀ (layers : List (String × Extent)) (board : Extent),
      ((room_needed layers board).min_x ≤ board.min_x ∧
        (∀ l ∈ layers, (room_needed layers board).min_x ≤ l.2.min_x) ∧
        ((room_needed layers board).min_x = board.min_x ∨
          ∃ l ∈ layers, (room_needed layers board).min_x = l.2.min_x)) ∧
      (board.max_x ≤ (room_needed layers board).max_x ∧
        (∀ l ∈ layers, l.2.max_x ≤ (room_needed layers board).max_x) ∧
        ((room_needed layers board).max_x = board.max_x ∨
          ∃ l ∈ layers, (room_needed layers board).max_x = l.2.max_x)) ∧
      ((room_needed layers board).min_y ≤ board.min_y ∧
        (∀ l ∈ layers, (room_needed layers board).min_y ≤ l.2.min_y) ∧
        ((room_needed layers board).min_y = board.min_y ∨
          ∃ l ∈ layers, (room_needed layers board).min_y = l.2.min_y)) ∧
      (board.max_y ≤ (room_needed layers board).max_y ∧
        (∀ l ∈ layers, l.2.max_y ≤ (room_needed layers board).max_y) ∧
        ((room_needed layers board).max_y = board.max_y ∨
          ∃ l ∈ layers, (room_needed layers board).max_y = l.2.max_y)) := by
  intro layers
  induction layers with
  | nil =>
    intro board
    simp [room_needed]
  | cons layer rest ih =>
    intro board
    obtain ⟨⟨a1, a2, a3⟩, ⟨b1, b2, b3⟩, ⟨c1, c2, c3⟩, ⟨d1, d2, d3⟩⟩ :=
      ih (extend_extent board layer.2)
    obtain ⟨ea1, ea2, ea3⟩ := extend_extent_min_x board layer.2
    obtain ⟨eb1, eb2, eb3⟩ := extend_extent_max_x board layer.2
    obtain ⟨ec1, ec2, ec3⟩ := extend_extent_min_y board layer.2
    obtain ⟨ed1, ed2, ed3⟩ := extend_extent_max_y board layer.2
    simp only [room_needed, List.mem_cons, forall_eq_or_imp, exists_eq_or_imp]
    refine ⟨⟨le_trans a1 ea1, ⟨le_trans a1 ea2, a2⟩, ?_⟩, ⟨le_trans eb1 b1, ⟨le_trans eb2 b1, b2⟩, ?_⟩,
      ⟨le_trans c1 ec1, ⟨le_trans c1 ec2, c2⟩, ?_⟩, ⟨le_trans ed1 d1, ⟨le_trans ed2 d1, d2⟩, ?_⟩⟩
    · rcases a3 with h | h
      · rcases ea3 with e | e
        · exact Or.inl (h.trans e)
        · exact Or.inr (Or.inl (h.trans e))
      · exact Or.inr (Or.inr h)
    · rcases b3 with h | h
      · rcases eb3 with e | e
        · exact Or.inl (h.trans e)
        · exact Or.inr (Or.inl (h.trans e))
      · exact Or.inr (Or.inr h)
    · rcases c3 with h | h
      · rcases ec3 with e | e
        · exact Or.inl (h.trans e)
        · exact Or.inr (Or.inl (h.trans e))
      · exact Or.inr (Or.inr h)
    · rcases d3 with h | h
      · rcases ed3 with e | e
        · exact Or.inl (h.trans e)
        · exact Or.inr (Or.inl (h.trans e))
      · exact Or.inr (Or.inr h)

theorem group_rings_loop_partition {α : Type} [DecidableEq α] (area : α → Int)
    (covered_by : α → α → Bool) :
    ∀ (fuel : Nat) (rings : List α) (grouped : List (α × List α)), rings.length ≤ fuel →
      ∃ groups, group_rings_loop area covered_by fuel rings grouped = some (grouped ++ groups) ∧
        (groups.flatMap (fun g => g.1 :: g.2)).Perm rings ∧ groups.length ≤ rings.length := by
  intro fuel
  induction fuel with
  | zero =>
    intro rings grouped h
    cases rings with
    | nil => exact ⟨[], by simp [group_rings_loop], by simp, le_refl _⟩
    | cons r rs => simp at h
  | succ fuel ih =>
    intro rings grouped h
    cases rings with
    | nil => exact ⟨[], by simp [group_rings_loop], by simp, le_refl _⟩
    | cons r rs =>
      obtain ⟨top, htop, _⟩ := max_element_spec area r rs
      have hperm := perm_cons_eraseIdx (r :: rs) _ top htop
      have hlen : ((r :: rs).eraseIdx (max_element area (r :: rs))).length = rs.length := by
        have := hperm.length_eq
        simp only [List.length_cons] at this
        omega
      have hfilter := List.filter_append_perm (joins_group covered_by top
        ((r :: rs).eraseIdx (max_element area (r :: rs))))
        ((r :: rs).eraseIdx (max_element area (r :: rs)))
      obtain ⟨groups, hgroups, hpart, hcount⟩ := ih
        (((r :: rs).eraseIdx (max_element area (r :: rs))).filter
          (fun i => !joins_group covered_by top
            ((r :: rs).eraseIdx (max_element area (r :: rs))) i))
        (grouped ++ [(top, ((r :: rs).eraseIdx (max_element area (r :: rs))).filter
            (joins_group covered_by top
              ((r :: rs).eraseIdx (max_element area (r :: rs)))))])
        (by
          have := List.length_filter_le (fun i => !joins_group covered_by top
            ((r :: rs).eraseIdx (max_element area (r :: rs))) i)
            ((r :: rs).eraseIdx (max_element area (r :: rs)))
          simp only [List.length_cons] at h
          omega)
      refine ⟨(top, ((r :: rs).eraseIdx (max_element area (r :: rs))).filter
            (joins_group covered_by top
              ((r :: rs).eraseIdx (max_element area (r :: rs))))) :: groups, ?_, ?_, ?_⟩
      · unfold group_rings_loop
        simp only [htop, hgroups, List.append_assoc, List.singleton_append]
      · rw [List.flatMap_cons]
        refine List.Perm.trans ?_ hperm.symm
        show (top :: _ ++ _).Perm _
        exact List.Perm.cons top ((List.Perm.append_left _ hpart).trans hfilter)
      · have := List.length_filter_le (fun i => !joins_group covered_by top
            ((r :: rs).eraseIdx (max_element area (r :: rs))) i)
            ((r :: rs).eraseIdx (max_element area (r :: rs)))
        simp only [List.length_cons]
        omega

end Pcb2gcode

namespace Pcb2gcode

theorem to_coordinate_mono {a b : ℚ} (h : a ≤ b) : to_coordinate a ≤ to_coordinate b := by
  unfold to_coordinate
  by_cases ha : 0 ≤ a
  · rw [if_pos ha, if_pos (le_trans ha h)]
    exact Int.floor_mono h
  · rw [if_neg ha]
    by_cases hb : 0 ≤ b
    · rw [if_pos hb]
      have h1 : ⌈a⌉ ≤ 0 := Int.ceil_le.mpr (by push_cast; exact le_of_lt (not_le.mp ha))
      have h2 : 0 ≤ ⌊b⌋ := Int.floor_nonneg.mpr hb
      omega
    · rw [if_neg hb]
      exact Int.ceil_mono h

theorem ring_from_getElem? (ring : Ring) (start t : Nat) (ht : t < ring.length - 1) :
    (ring_from ring start)[t]? = some (ring.getD ((start + t) % (ring.length - 1)) (0, 0)) := by
  unfold ring_from
  rw [List.getElem?_append_left (by simpa using ht), List.getElem?_map,
    List.getElem?_range ht]
  rfl

theorem ring_from_getElem?_last (ring : Ring) (start : Nat) :
    (ring_from ring start)[ring.length - 1]? = some (ring.getD start (0, 0)) := by
  unfold ring_from
  rw [List.getElem?_append_right (by simp)]
  simp

end Pcb2gcode

namespace Pcb2gcode

theorem copy_ring_loop_some {F : Type} (S : Surface F) (mirror : Bool) (mirror_axis : Int)
    (ring : Ring) (start : Nat) :
    ∀ (fuel i : Nat) (tp : List (List (F × F))) (r : Nat × List (List (F × F))),
      copy_ring_loop S mirror mirror_axis ring start fuel i tp = some r → r.1 = start := by
  intro fuel
  induction fuel with
  | zero => intro i tp r h; simp [copy_ring_loop] at h
  | succ fuel ih =>
    intro i tp r h
    unfold copy_ring_loop at h
    cases hget : ring[i]? with
    | none => simp [hget] at h
    | some p =>
      simp only [hget] at h
      by_cases h0 : ring.length - 1 = 0
      · simp [h0] at h
      · rw [if_neg h0] at h
        by_cases hne : (i + 1) % (ring.length - 1) ≠ start
        · rw [if_pos hne] at h
          exact ih _ _ r h
        · rw [if_neg hne] at h
          simp only [Option.some.injEq] at h
          rw [← h]
          exact not_not.mp hne

theorem copy_ring_to_toolpath_some {F : Type} (S : Surface F) (mirror : Bool)
    (mirror_axis : Int) (ring : Ring) (start : Nat) (st st' : Stitch F)
    (h : copy_ring_to_toolpath S mirror mirror_axis ring start st = some st') :
    st'.log = push_to_back st.log (ring, start) ∧
      st'.last_point = ring.getD start (0, 0) := by
  unfold copy_ring_to_toolpath at h
  cases hloop : copy_ring_loop S mirror mirror_axis ring start ring.length start st.toolpath with
  | none => simp [hloop] at h
  | some r =>
    have hr := copy_ring_loop_some S mirror mirror_axis ring start _ _ _ r hloop
    obtain ⟨i, tp⟩ := r
    simp only at hr
    subst hr
    simp only [hloop] at h
    cases hget : ring[i]? with
    | none => simp [hget] at h
    | some p =>
      simp only [hget, Option.some.injEq] at h
      subst h
      exact ⟨rfl, (getD_of_getElem? hget).symm⟩

theorem start_invariant_copy {F : Type} (S : Surface F) (mirror : Bool) (mirror_axis : Int)
    (lg : List (List (Ring × Nat))) (ring : Ring) (st st' : Stitch F)
    (hinv : start_invariant lg st) (s : Nat)
    (hs : find_closest_point_index ring st.last_point = some s)
    (h : copy_ring_to_toolpath S mirror mirror_axis ring s st = some st') :
    start_invariant lg st' := by
  obtain ⟨cs, hlog, hchain, hlast⟩ := hinv
  obtain ⟨hlog', hlp⟩ := copy_ring_to_toolpath_some S mirror mirror_axis ring s st st' h
  refine ⟨cs ++ [(ring, s)], ?_, ?_, ?_⟩
  · rw [hlog', hlog, push_to_back_append]
  · rw [List.chain'_append]
    refine ⟨hchain, List.chain'_singleton _, ?_⟩
    intro x hx y hy
    simp only [List.head?_cons, Option.mem_def, Option.some.injEq] at hy
    subst hy
    show find_closest_point_index ring (x.1.getD x.2 (0, 0)) = some s
    rw [← hlast x hx]
    exact hs
  · intro c hc
    rw [List.getLast?_concat, Option.some.injEq] at hc
    subst hc
    exact hlp

theorem pass_body_starts {F : Type} (K : Kernel) (S : Surface F) (input voronoi : MultiPolygon)
    (offset : Int) (index : Nat) (mirror : Bool) (mirror_axis : Int)
    (lg : List (List (Ring × Nat))) (i : Nat) (a b : Passes F) (hi : 1 ≤ i)
    (h : pass_body K S input voronoi offset index mirror mirror_axis i a = some b)
    (hinv : start_invariant lg a.st) : start_invariant lg b.st := by
  unfold pass_body at h
  cases hp : pass_polygon K S input voronoi offset index i with
  | none => simp [hp] at h
  | some pc =>
    obtain ⟨poly, contended⟩ := pc
    simp only [hp] at h
    cases he : emit_outer K S mirror mirror_axis i poly a with
    | none => simp [he] at h
    | some r =>
      obtain ⟨collapsed, st⟩ := r
      simp only [he, Option.some.injEq] at h
      subst h
      show start_invariant lg st
      unfold emit_outer at he
      rw [if_neg (by omega)] at he
      cases hprev : a.polygons[i - 1]? with
      | none => simp [hprev] at he
      | some prev =>
        simp only [hprev] at he
        by_cases hc : (a.outer_collapsed || K.equals_ring poly.outer prev.outer) = true
        · rw [if_pos hc] at he
          simp only [Option.some.injEq, Prod.mk.injEq] at he
          rw [← he.2]
          exact hinv
        · rw [if_neg hc] at he
          cases hs : find_closest_point_index poly.outer a.st.last_point with
          | none => simp [hs] at he
          | some s =>
            simp only [hs] at he
            cases hcopy : copy_ring_to_toolpath S mirror mirror_axis poly.outer s a.st with
            | none => simp [hcopy] at he
            | some st1 =>
              simp only [hcopy, Option.some.injEq, Prod.mk.injEq] at he
              rw [← he.2]
              exact start_invariant_copy S mirror mirror_axis lg poly.outer a.st st1 hinv s hs
                hcopy

theorem pass_loop_starts {F : Type} (K : Kernel) (S : Surface F) (input voronoi : MultiPolygon)
    (offset : Int) (index : Nat) (mirror : Bool) (mirror_axis : Int)
    (lg : List (List (Ring × Nat))) :
    ∀ (n i : Nat) (a b : Passes F), 1 ≤ i →
      pass_loop K S input voronoi offset index mirror mirror_axis n i a = some b →
      start_invariant lg a.st → start_invariant lg b.st := by
  intro n
  induction n with
  | zero =>
    intro i a b _ h hinv
    simp only [pass_loop, Option.some.injEq] at h
    subst h
    exact hinv
  | succ n ih =>
    intro i a b hi h hinv
    unfold pass_loop at h
    cases hb : pass_body K S input voronoi offset index mirror mirror_axis i a with
    | none => simp [hb] at h
    | some c =>
      simp only [hb] at h
      exact ih (i + 1) c b (by omega) h
        (pass_body_starts K S input voronoi offset index mirror mirror_axis lg i a c hi hb hinv)

theorem pass_body_first_starts {F : Type} (K : Kernel) (S : Surface F)
    (input voronoi : MultiPolygon) (offset : Int) (index : Nat) (mirror : Bool)
    (mirror_axis : Int) (toolpath : List (List (F × F))) (contentions : Bool) (b : Passes F)
    (h : pass_body K S input voronoi offset index mirror mirror_axis 0
      (initial_passes toolpath contentions) = some b) :
    start_invariant (toolpath.map (fun _ => [])) b.st := by
  unfold pass_body at h
  cases hp : pass_polygon K S input voronoi offset index 0 with
  | none => simp [hp] at h
  | some pc =>
    obtain ⟨poly, contended⟩ := pc
    simp only [hp] at h
    cases he : emit_outer K S mirror mirror_axis 0 poly (initial_passes toolpath contentions) with
    | none => simp [he] at h
    | some r =>
      obtain ⟨collapsed, st⟩ := r
      simp only [he, Option.some.injEq] at h
      subst h
      show start_invariant _ st
      unfold emit_outer at he
      simp only [if_true] at he
      cases hcopy : copy_ring_to_toolpath S mirror mirror_axis poly.outer 0
          (initial_passes toolpath contentions).st with
      | none => simp [hcopy] at he
      | some st1 =>
        simp only [hcopy, Option.some.injEq, Prod.mk.injEq] at he
        rw [← he.2]
        obtain ⟨hlog, hlp⟩ := copy_ring_to_toolpath_some S mirror mirror_axis poly.outer 0 _ st1
          hcopy
        refine ⟨[(poly.outer, 0)], ?_, List.chain'_singleton _, ?_⟩
        · rw [hlog]
          show push_to_back (toolpath.map (fun _ => []) ++ [[]]) (poly.outer, 0) = _
          rw [push_to_back_append]
          rfl
        · intro c hc
          simp only [List.getLast?_singleton, Option.some.injEq] at hc
          subst hc
          exact hlp

/-- The run of `offset_polygon` when every pass polygon exists and has closed rings: the
pass loop and the stitching loop both return. -/
theorem offset_polygon_run {F : Type} (K : Kernel) (S : Surface F)
    (input voronoi : MultiPolygon) (toolpath : List (List (F × F))) (contentions : Bool)
    (offset : Int) (index steps : Nat) (mirror : Bool) (mirror_axis : Int)
    (P : Nat → Polygon) (C : Nat → Bool) (hsteps : 1 ≤ pass_count offset steps)
    (hP : ∀ i, i < pass_count offset steps →
      pass_polygon K S input voronoi offset index i = some (P i, C i))
    (hO : ∀ i, i < pass_count offset steps → closed_ring (P i).outer)
    (hI : ∀ i, i < pass_count offset steps → ∀ r ∈ (P i).inners, closed_ring r) :
    ∃ a r,
      pass_loop K S input voronoi offset index mirror mirror_axis (pass_count offset steps) 0
        (initial_passes toolpath contentions) = some a ∧
      pass_invariant K S mirror mirror_axis P C toolpath contentions
        (pass_count offset steps) a ∧
      start_invariant (toolpath.map (fun _ => [])) a.st ∧
      closed_pool a.rings ∧
      stitch_loop K S mirror mirror_axis (pool_size a.rings + 1) a.rings a.st = some r ∧
      offset_polygon K S input voronoi toolpath contentions offset index steps mirror
        mirror_axis =
        some { polygons := a.polygons, toolpath := r.2.toolpath, contentions := a.contentions,
               log := r.2.log, rings := r.1 } := by
  obtain ⟨b, hb, hinvb⟩ := pass_body_first K S input voronoi offset index mirror mirror_axis
    P C toolpath contentions (hP 0 (by omega)) (hO 0 (by omega))
  obtain ⟨n, hn⟩ : ∃ n, pass_count offset steps = n + 1 := ⟨pass_count offset steps - 1, by omega⟩
  obtain ⟨a, ha, hinva⟩ := pass_loop_spec K S input voronoi offset index mirror mirror_axis
    P C toolpath contentions (pass_count offset steps) hP hO n 1 b (le_refl _) (by omega) hinvb
  have hstart := pass_loop_starts K S input voronoi offset index mirror mirror_axis
    (toolpath.map (fun _ => [])) n 1 b a (le_refl _) ha
    (pass_body_first_starts K S input voronoi offset index mirror mirror_axis toolpath
      contentions b hb)
  have hloop : pass_loop K S input voronoi offset index mirror mirror_axis
      (pass_count offset steps) 0 (initial_passes toolpath contentions) = some a := by
    rw [hn]
    unfold pass_loop
    simp only [hb]
    exact ha
  have hcl : closed_pool a.rings := by
    intro l hl r hr
    rw [hinva.2.1] at hl
    obtain ⟨j, hj, rfl⟩ := List.mem_map.mp hl
    exact hI j (List.mem_range.mp hj) r hr
  obtain ⟨rings', st', extra, extralog, hst, _⟩ :=
    stitch_loop_spec K S mirror mirror_axis (pool_size a.rings + 1) a.rings a.st
      (by omega) hcl
  refine ⟨a, (rings', st'), hloop, hinva, hstart, hcl, hst, ?_⟩
  unfold offset_polygon
  simp only [hloop, hst]

end Pcb2gcode

namespace Pcb2gcode

theorem Chained.consumed {K : Kernel} {prev : Ring} {last_point : Point}
    {later : List (List Ring)} {copies : List (Ring × Nat)} {later' : List (List Ring)}
    (h : Chained K prev last_point later copies later') :
    ∃ dropped : List Ring,
      (copies.map Prod.fst ++ dropped ++ later'.flatten).Perm later.flatten := by
  induction h with
  | finished => exact ⟨[], by simp⟩
  | stop => exact ⟨[], by simp⟩
  | identical prev last_point l rest k r copies rest' hk _ _ ih =>
    obtain ⟨dropped, hperm⟩ := ih
    refine ⟨r :: dropped, ?_⟩
    have hl := perm_cons_eraseIdx l k r hk
    rw [List.perm_iff_count] at hperm hl ⊢
    intro x
    have h1 := hperm x
    have h2 := hl x
    simp only [List.flatten_cons, List.count_append, List.count_cons] at h1 h2 ⊢
    omega
  | nested prev last_point l rest k r s v copies rest' hk _ _ ih =>
    obtain ⟨dropped, hperm⟩ := ih
    refine ⟨dropped, ?_⟩
    have hl := perm_cons_eraseIdx l k r hk
    rw [List.perm_iff_count] at hperm hl ⊢
    intro x
    have h1 := hperm x
    have h2 := hl x
    simp only [List.flatten_cons, List.count_append, List.count_cons, List.map_cons] at h1 h2 ⊢
    omega

theorem Chained.nil_inv {K : Kernel} {prev : Ring} {last_point : Point}
    {copies : List (Ring × Nat)} {later' : List (List Ring)}
    (h : Chained K prev last_point [] copies later') : copies = [] ∧ later' = [] := by
  cases h
  exact ⟨rfl, rfl⟩

theorem flatten_empties (pre : List (List Ring)) (h : ∀ l ∈ pre, l = []) :
    pre.flatten = [] := by
  induction pre with
  | nil => rfl
  | cons a t ih =>
    rw [List.flatten_cons, h a (List.mem_cons_self _ _),
      ih (fun l hl => h l (List.mem_cons_of_mem _ hl))]
    rfl

theorem pool_size_zero :
    ∀ (rings : List (List Ring)), pool_size rings = 0 → ∀ l ∈ rings, l = [] := by
  intro rings
  induction rings with
  | nil => intro _ l hl; simp at hl
  | cons a t ih =>
    intro h l hl
    rw [pool_size_cons] at h
    rcases List.mem_cons.mp hl with rfl | hl
    · exact List.length_eq_zero.mp (by omega)
    · exact ih (by omega) l hl

/-- The run of the stitching loop on a pool of closed rings: it makes `n` iterations (it
returns with any fuel above `n` and not with `n`), each appending one toolpath. -/
theorem stitch_loop_run {F : Type} (K : Kernel) (S : Surface F) (mirror : Bool)
    (mirror_axis : Int) :
    ∀ (m : Nat) (rings : List (List Ring)) (st : Stitch F),
      pool_size rings ≤ m → closed_pool rings →
      ∃ (n : Nat) (rings' : List (List Ring)) (st' : Stitch F)
        (extra : List (List (F × F))) (extralog : List (List (Ring × Nat)))
        (dropped : List Ring),
        n ≤ pool_size rings ∧
        (∀ fuel, n < fuel →
          stitch_loop K S mirror mirror_axis fuel rings st = some (rings', st')) ∧
        stitch_loop K S mirror mirror_axis n rings st = none ∧
        st'.toolpath = st.toolpath ++ extra ∧ st'.log = st.log ++ extralog ∧
        extra.length = n ∧ extralog.length = n ∧
        (∀ l ∈ rings', l = []) ∧ rings'.length = rings.length ∧
        ((extralog.flatten.map Prod.fst) ++ dropped).Perm rings.flatten ∧
        (∀ l, rings = [l] → extralog = l.map (fun x => [(x, 0)])) := by
  intro m
  induction m with
  | zero =>
    intro rings st hm _
    have hz : pool_size rings = 0 := by omega
    have hall := pool_size_zero rings hz
    have hfirst : find_first_nonempty rings = none := by
      cases hf : find_first_nonempty rings with
      | none => rfl
      | some i =>
        obtain ⟨pre, biggest, tail, post, hr, _, _⟩ := find_first_nonempty_some rings i hf
        have := hall (biggest :: tail) (by rw [hr]; simp)
        simp at this
    refine ⟨0, rings, st, [], [], [], by omega, ?_, rfl, by simp, by simp, rfl, rfl, hall, rfl,
      ?_, ?_⟩
    · intro fuel hfuel
      obtain ⟨f, rfl⟩ : ∃ f, fuel = f + 1 := ⟨fuel - 1, by omega⟩
      unfold stitch_loop
      simp only [hfirst]
    · rw [flatten_empties rings hall]; simp
    · intro l hl
      subst hl
      rw [hall l (by simp)]
      rfl
  | succ m ih =>
    intro rings st hm hcl
    cases hfirst : find_first_nonempty rings with
    | none =>
      have hz := find_first_nonempty_none rings hfirst
      have hall := pool_size_zero rings hz
      refine ⟨0, rings, st, [], [], [], by omega, ?_, rfl, by simp, by simp, rfl, rfl, hall,
        rfl, ?_, ?_⟩
      · intro fuel hfuel
        obtain ⟨f, rfl⟩ : ∃ f, fuel = f + 1 := ⟨fuel - 1, by omega⟩
        unfold stitch_loop
        simp only [hfirst]
      · rw [flatten_empties rings hall]; simp
      · intro l hl
        subst hl
        rw [hall l (by simp)]
        rfl
    | some i =>
      obtain ⟨pre, biggest, tail, post, later', st1, copies, hr, hlen, hpre, hstep, htp1, hlg1,
        hch, hcl1, hsz1, hln1⟩ := stitch_step_spec K S mirror mirror_axis rings i st hcl hfirst
      obtain ⟨n, rings', st', extra, extralog, dropped, hn, hsome, hnone, htp', hlg', hex,
        hexl, hall, hln', hperm, hsingle⟩ := ih (pre ++ tail :: later') st1 (by omega) hcl1
      obtain ⟨droppedc, hpermc⟩ := hch.consumed
      refine ⟨n + 1, rings', st',
        copied_points S mirror mirror_axis ((biggest, 0) :: copies) :: extra,
        ((biggest, 0) :: copies) :: extralog, droppedc ++ dropped, by omega, ?_, ?_, ?_, ?_,
        by simp [hex], by simp [hexl], hall, by omega, ?_, ?_⟩
      · intro fuel hfuel
        obtain ⟨f, rfl⟩ : ∃ f, fuel = f + 1 := ⟨fuel - 1, by omega⟩
        unfold stitch_loop
        simp only [hfirst, hstep]
        exact hsome f (by omega)
      · unfold stitch_loop
        simp only [hfirst, hstep]
        exact hnone
      · rw [htp', htp1, List.append_assoc]; rfl
      · rw [hlg', hlg1, List.append_assoc]; rfl
      · have hflat : rings.flatten = biggest :: tail ++ post.flatten := by
          rw [hr, List.flatten_append, flatten_empties pre hpre]
          simp
        have hflat' : (pre ++ tail :: later').flatten = tail ++ later'.flatten := by
          rw [List.flatten_append, flatten_empties pre hpre]
          simp
        rw [hflat'] at hperm
        rw [hflat]
        rw [List.perm_iff_count] at hperm hpermc ⊢
        intro x
        have h1 := hperm x
        have h2 := hpermc x
        simp only [List.flatten_cons, List.count_append, List.count_cons, List.map_cons,
          List.map_append, List.cons_append] at h1 h2 ⊢
        omega
      · intro l hl
        subst hl
        have hpre0 : pre = [] := by
          cases pre with
          | nil => rfl
          | cons a t =>
            have := congrArg List.length hr
            simp at this
        subst hpre0
        simp only [List.nil_append, List.cons.injEq] at hr
        obtain ⟨hl, hpost⟩ := hr
        subst hpost
        obtain ⟨hcopies, hlater⟩ := hch.nil_inv
        subst hcopies
        subst hlater
        rw [hsingle tail rfl, hl]
        rfl

end Pcb2gcode

namespace Pcb2gcode

theorem pass_polygon_contended {F : Type} (K : Kernel) (S : Surface F)
    (input voronoi : MultiPolygon) (offset : Int) (index i : Nat) (p : Polygon) (c : Bool)
    (h : pass_polygon K S input voronoi offset index i = some (p, c)) :
    c = true ↔ 0 < offset ∧ ∃ region buffered, input[index]? = some region ∧
      (K.buffer region (offset * ((i : Int) + 1)))[0]? = some buffered ∧
      K.equals_polygon p buffered = false := by
  unfold pass_polygon at h
  by_cases h0 : offset = 0
  · rw [if_pos h0] at h
    cases hr : input[index]? with
    | none => simp [hr] at h
    | some region =>
      simp only [hr, Option.some.injEq, Prod.mk.injEq] at h
      rw [← h.2]
      constructor
      · intro hc; exact Bool.noConfusion hc
      · rintro ⟨hpos, _⟩; omega
  · rw [if_neg h0] at h
    by_cases hpos : 0 < offset
    · rw [if_pos hpos] at h
      cases hr : input[index]? with
      | none => simp [hr] at h
      | some region =>
        simp only [hr] at h
        cases hb : (K.buffer region (offset * ((i : Int) + 1)))[0]? with
        | none => simp [hb] at h
        | some buffered =>
          simp only [hb] at h
          cases hv : voronoi[index]? with
          | none => simp [hv] at h
          | some cell =>
            simp only [hv] at h
            cases hm : (mask_surface K S.mask (K.intersection_pp buffered cell))[0]? with
            | none => simp [hm] at h
            | some clipped =>
              simp only [hm, Option.some.injEq, Prod.mk.injEq] at h
              obtain ⟨hp, hc⟩ := h
              subst hp
              rw [← hc]
              constructor
              · intro hne
                exact ⟨hpos, region, buffered, rfl, hb, by simpa using hne⟩
              · rintro ⟨_, region', buffered', hr', hb', hne⟩
                simp only [Option.some.injEq] at hr'
                subst hr'
                rw [hb, Option.some.injEq] at hb'
                subst hb'
                simp [hne]
    · rw [if_neg hpos] at h
      have hfalse : c = false := by
        cases hm : S.mask with
        | none =>
          simp only [hm] at h
          cases hv : voronoi[index]? with
          | none => simp [hv] at h
          | some cell =>
            simp only [hv, Option.some.injEq, Prod.mk.injEq] at h
            exact h.2.symm
        | some m =>
          simp only [hm] at h
          cases hv : voronoi[index]? with
          | none => simp [hv] at h
          | some cell =>
            simp only [hv] at h
            cases hx : (K.intersection_pm cell m)[0]? with
            | none => simp [hx] at h
            | some clipped =>
              simp only [hx, Option.some.injEq, Prod.mk.injEq] at h
              exact h.2.symm
      rw [hfalse]
      constructor
      · intro hc; exact Bool.noConfusion hc
      · rintro ⟨hp, _⟩; exact absurd hp hpos

theorem any_range_succ_shift (f : Nat → Bool) (n : Nat) :
    (List.range (n + 1)).any f = (f 0 || (List.range n).any (fun d => f (d + 1))) := by
  rw [List.range_succ_eq_map, List.any_cons, List.any_map]
  rfl

theorem region_loop_spec {F : Type} (K : Kernel) (S : Surface F)
    (input voronoi : MultiPolygon) (grow : Int) (steps : Nat) (mirror : Bool)
    (mirror_axis : Int) (P : Nat → Nat → Polygon) (C : Nat → Nat → Bool)
    (hsteps : 1 ≤ pass_count grow steps)
    (hP : ∀ idx, idx < input.length → ∀ j, j < pass_count grow steps →
      pass_polygon K S input voronoi grow idx j = some (P idx j, C idx j))
    (hO : ∀ idx, idx < input.length → ∀ j, j < pass_count grow steps →
      closed_ring (P idx j).outer)
    (hI : ∀ idx, idx < input.length → ∀ j, j < pass_count grow steps →
      ∀ r ∈ (P idx j).inners, closed_ring r) :
    ∀ (cnt i : Nat) (tp : List (List (F × F))) (c : Bool), i + cnt = input.length →
      ∃ r, region_loop K S input voronoi grow steps mirror mirror_axis cnt i tp c = some r ∧
        r.2 = (c || (List.range cnt).any
          (fun d => (List.range (pass_count grow steps)).any (C (i + d)))) := by
  intro cnt
  induction cnt with
  | zero =>
    intro i tp c _
    exact ⟨(tp, c), rfl, by simp⟩
  | succ cnt ih =>
    intro i tp c hi
    obtain ⟨res, a, _, _, hres, hinv, _, hcont, _, _, _⟩ :=
      offset_polygon_spec K S input voronoi tp c grow i steps mirror mirror_axis
        (P i) (C i) hsteps (hP i (by omega)) (hO i (by omega)) (hI i (by omega))
    obtain ⟨r, hr, hr2⟩ := ih (i + 1) res.toolpath res.contentions (by omega)
    refine ⟨r, ?_, ?_⟩
    · unfold region_loop
      simp only [hres]
      exact hr
    · rw [hr2, hcont, hinv.2.2.1, any_range_succ_shift, Nat.add_zero, Bool.or_assoc]
      congr 2
      apply congrArg
      funext d
      have : i + 1 + d = i + (d + 1) := by omega
      rw [this]

end Pcb2gcode

namespace Pcb2gcode

/-! ## The claims -/

/-- C1: with offset `0` and no mirroring, for a region whose outer ring is closed (its holes
being closed rings too) and any pass count `steps ≥ 1`, `offset_polygon` returns, and the
first toolpath it appends (at the position `toolpath.length`) is exactly the outer ring's
points in ring order from index 0, closing point included, each coordinate divided by
`scale`; the outer ring is copied exactly once, and the contention flag is unchanged. -/
theorem offset_polygon_zero_offset_outer {F : Type} (K : Kernel) (S : Surface F)
    (input voronoi : MultiPolygon) (toolpath : List (List (F × F))) (contentions : Bool)
    (index steps : Nat) (mirror_axis : Int) (region : Polygon)
    (hregion : input[index]? = some region)
    (houter : closed_ring region.outer)
    (hinners : ∀ r ∈ region.inners, closed_ring r)
    (hsteps : 1 ≤ steps)
    (hrefl : K.equals_ring region.outer region.outer = true) :
    ∃ res, offset_polygon K S input voronoi toolpath contentions 0 index steps false
        mirror_axis = some res ∧
      res.toolpath[toolpath.length]? =
        some (region.outer.map (fun p => (S.fdiv p.1 S.scale, S.fdiv p.2 S.scale))) ∧
      res.log[toolpath.length]? = some [(region.outer, 0)] ∧
      res.contentions = contentions := by
  have hcount : pass_count 0 steps = steps := by simp [pass_count]
  obtain ⟨res, a, extra, extralog, hres, hinv, _, hcont, htp, hlg, _⟩ :=
    offset_polygon_spec K S input voronoi toolpath contentions 0 index steps false mirror_axis
      (fun _ => region) (fun _ => false) (by omega)
      (fun i _ => by simp [pass_polygon, hregion])
      (fun _ _ => houter) (fun _ _ => hinners)
  obtain ⟨_, _, hc, k, cs, hk1, _, hbefore, _, _, hatp, halg, hlen, _, hhead⟩ := hinv
  have hk : k = 1 := by
    by_contra hne
    have := hbefore 1 (le_refl _) (by omega)
    rw [hrefl] at this
    exact Bool.noConfusion this
  have hcs : cs = [(region.outer, 0)] := by
    cases cs with
    | nil => simp at hhead
    | cons c t =>
      cases t with
      | nil => simpa using hhead
      | cons c' t' => simp at hlen; omega
  subst hcs
  refine ⟨res, hres, ?_, ?_, ?_⟩
  · rw [htp, hatp, List.append_assoc, List.getElem?_append_right (le_refl _)]
    have hemit : (emit_point S false mirror_axis) =
        (fun p : Point => (S.fdiv p.1 S.scale, S.fdiv p.2 S.scale)) := by
      funext p; simp [emit_point]
    simp [copied_points, ring_from_zero _ houter, hemit]
  · rw [hlg, halg, List.append_assoc, List.getElem?_append_right (by simp)]
    simp
  · rw [hcont, hc]
    simp

/-- Witness of C1: the square with three holes, two passes. -/
theorem offset_polygon_zero_offset_outer_witness :
    ∃ res, offset_polygon demo_kernel demo_surface [demo_region] [] [] false 0 0 2 false 0 =
        some res ∧
      res.toolpath[0]? = some (demo_region.outer.map
        (fun p => (demo_surface.fdiv p.1 demo_surface.scale,
          demo_surface.fdiv p.2 demo_surface.scale))) ∧
      res.log[0]? = some [(demo_region.outer, 0)] ∧
      res.contentions = false :=
  offset_polygon_zero_offset_outer demo_kernel demo_surface [demo_region] [] [] false 0 2 0
    demo_region rfl (by decide) (by decide) (by decide) (by decide)

/-- C2: for an offset `≥ 0`, `steps ≥ 1` and pass polygons `P 0 .. P (steps-1)` with closed
rings, `offset_polygon` returns and the outer rings copied into the region's first toolpath
are those of the passes `0 .. k-1`, where `k` is the least `i` in `1 .. steps-1` whose outer
ring equals that of pass `i-1`, and `steps` if there is none; for `steps = 1` exactly one
outer ring is copied. -/
theorem offset_polygon_outer_until_collapse {F : Type} (K : Kernel) (S : Surface F)
    (input voronoi : MultiPolygon) (toolpath : List (List (F × F))) (contentions : Bool)
    (offset : Int) (index steps : Nat) (mirror : Bool) (mirror_axis : Int)
    (P : Nat → Polygon) (C : Nat → Bool)
    (hoffset : 0 ≤ offset) (hsteps : 1 ≤ steps)
    (hP : ∀ i, i < steps → pass_polygon K S input voronoi offset index i = some (P i, C i))
    (hO : ∀ i, i < steps → closed_ring (P i).outer)
    (hI : ∀ i, i < steps → ∀ r ∈ (P i).inners, closed_ring r) :
    ∃ res k cs,
      offset_polygon K S input voronoi toolpath contentions offset index steps mirror
        mirror_axis = some res ∧
      1 ≤ k ∧ k ≤ steps ∧
      (∀ j, 1 ≤ j → j < k → K.equals_ring (P j).outer (P (j - 1)).outer = false) ∧
      (k < steps → K.equals_ring (P k).outer (P (k - 1)).outer = true) ∧
      res.log[toolpath.length]? = some cs ∧
      res.toolpath[toolpath.length]? = some (copied_points S mirror mirror_axis cs) ∧
      cs.length = k ∧
      cs.map Prod.fst = (List.range k).map (fun j => (P j).outer) ∧
      (steps = 1 → cs.length = 1) := by
  have hcount : pass_count offset steps = steps := by
    unfold pass_count; rw [if_neg (by omega)]
  obtain ⟨res, a, extra, extralog, hres, hinv, _, _, htp, hlg, _⟩ :=
    offset_polygon_spec K S input voronoi toolpath contentions offset index steps mirror
      mirror_axis P C (by omega) (by rw [hcount]; exact hP) (by rw [hcount]; exact hO)
      (by rw [hcount]; exact hI)
  rw [hcount] at hinv
  obtain ⟨_, _, _, k, cs, hk1, hks, hbefore, hat, _, hatp, halg, hlen, hfst, _⟩ := hinv
  refine ⟨res, k, cs, hres, hk1, hks, hbefore, hat, ?_, ?_, hlen, hfst, by omega⟩
  · rw [hlg, halg, List.append_assoc, List.getElem?_append_right (by simp)]
    simp
  · rw [htp, hatp, List.append_assoc, List.getElem?_append_right (le_refl _)]
    simp

/-- Witness of C2: the square with three holes, three passes of offset 0 (the outer ring
collapses at pass 1). -/
theorem offset_polygon_outer_until_collapse_witness :
    ∃ res k cs,
      offset_polygon demo_kernel demo_surface [demo_region] [] [] false 0 0 3 false 0 =
        some res ∧
      1 ≤ k ∧ k ≤ 3 ∧
      (∀ j, 1 ≤ j → j < k → demo_kernel.equals_ring demo_region.outer demo_region.outer
        = false) ∧
      (k < 3 → demo_kernel.equals_ring demo_region.outer demo_region.outer = true) ∧
      res.log[0]? = some cs ∧
      res.toolpath[0]? = some (copied_points demo_surface false 0 cs) ∧
      cs.length = k ∧
      cs.map Prod.fst = (List.range k).map (fun _ => demo_region.outer) ∧
      (3 = 1 → cs.length = 1) :=
  offset_polygon_outer_until_collapse demo_kernel demo_surface [demo_region] [] [] false 0 0 3
    false 0 (fun _ => demo_region) (fun _ => false) (by decide) (by decide)
    (fun _ _ => rfl) (fun _ _ => (by decide : closed_ring demo_region.outer))
    (fun _ _ => (by decide : ∀ r ∈ demo_region.inners, closed_ring r))

/-- C3: the mirroring of `push_point` is an involution: reflecting `x` across the axis `a`
twice gives `x` back, the `y` coordinate is emitted unchanged by mirroring, and the point
emitted for the mirrored point with mirroring on is the point emitted for the original
point with mirroring off, `(x / scale, y / scale)`. -/
theorem push_point_mirror_involution {F : Type} (S : Surface F) (a x y : Int) :
    2 * a - (2 * a - x) = x ∧
    (emit_point S true a (x, y)).1 = S.fdiv (2 * a - x) S.scale ∧
    (emit_point S true a (x, y)).2 = (emit_point S false a (x, y)).2 ∧
    emit_point S true a (2 * a - x, y) = emit_point S false a (x, y) ∧
    emit_point S false a (x, y) = (S.fdiv x S.scale, S.fdiv y S.scale) := by
  have h : 2 * a - (2 * a - x) = x := by omega
  simp [emit_point, h]

/-- C10: for a negative offset and any `steps`, `offset_polygon` computes exactly one pass:
it returns one polygon, the region's Voronoi cell when there is no mask and the first
polygon of the cell's intersection with the mask otherwise (its rings being closed), copies
exactly one outer ring, and leaves the contention flag unchanged. -/
theorem offset_polygon_negative_single_pass {F : Type} (K : Kernel) (S : Surface F)
    (input voronoi : MultiPolygon) (toolpath : List (List (F × F))) (contentions : Bool)
    (offset : Int) (index steps : Nat) (mirror : Bool) (mirror_axis : Int)
    (cell poly : Polygon)
    (hoffset : offset < 0)
    (hcell : voronoi[index]? = some cell)
    (hpoly : (match S.mask with
      | none => some cell
      | some m => (K.intersection_pm cell m)[0]?) = some poly)
    (hO : closed_ring poly.outer)
    (hI : ∀ r ∈ poly.inners, closed_ring r) :
    ∃ res, offset_polygon K S input voronoi toolpath contentions offset index steps mirror
        mirror_axis = some res ∧
      res.polygons = [poly] ∧
      res.log[toolpath.length]? = some [(poly.outer, 0)] ∧
      res.contentions = contentions := by
  have hcount : pass_count offset steps = 1 := by
    unfold pass_count; rw [if_pos hoffset]
  have hne : ¬ offset = 0 := by omega
  have hnp : ¬ 0 < offset := by omega
  have hpass : pass_polygon K S input voronoi offset index 0 = some (poly, false) := by
    unfold pass_polygon
    rw [if_neg hne, if_neg hnp]
    cases hm : S.mask with
    | none =>
      rw [hm] at hpoly
      simp only [Option.some.injEq] at hpoly
      simp [hcell, hpoly]
    | some m =>
      rw [hm] at hpoly
      simp only at hpoly
      simp [hcell, hpoly]
  obtain ⟨res, a, extra, extralog, hres, hinv, hpolys, hcont, htp, hlg, _⟩ :=
    offset_polygon_spec K S input voronoi toolpath contentions offset index steps mirror
      mirror_axis (fun _ => poly) (fun _ => false) (by omega)
      (fun i hi => by
        have : i = 0 := by omega
        subst this
        exact hpass)
      (fun _ _ => hO) (fun _ _ => hI)
  rw [hcount] at hinv
  obtain ⟨hp, _, hc, k, cs, hk1, hk2, _, _, _, _, halg, hlen, _, hhead⟩ := hinv
  have hcs : cs = [(poly.outer, 0)] := by
    cases cs with
    | nil => simp at hhead
    | cons c t =>
      cases t with
      | nil => simpa using hhead
      | cons c' t' => simp at hlen; omega
  subst hcs
  refine ⟨res, hres, ?_, ?_, ?_⟩
  · rw [hpolys, hp]; rfl
  · rw [hlg, halg, List.append_assoc, List.getElem?_append_right (by simp)]
    simp
  · rw [hcont, hc]; simp

/-- Witness of C10: the square with three holes as the Voronoi cell, offset `-5`. -/
theorem offset_polygon_negative_single_pass_witness :
    ∃ res, offset_polygon demo_kernel demo_surface [demo_frame] [demo_region] [] false (-5) 0 4
        false 0 = some res ∧
      res.polygons = [demo_region] ∧
      res.log[0]? = some [(demo_region.outer, 0)] ∧
      res.contentions = false :=
  offset_polygon_negative_single_pass demo_kernel demo_surface [demo_frame] [demo_region] []
    false (-5) 0 4 false 0 demo_region demo_region (by decide) rfl rfl (by decide) (by decide)

end Pcb2gcode

namespace Pcb2gcode

/-- C4, counterexample: on the square whose holes are listed in the order medium, small,
big, a single pass of offset 0 opens the first hole toolpath with the medium hole, although
the small hole has the larger signed area and the big hole the larger absolute area, and
both are still in the pool. -/
theorem hole_toolpath_not_largest_area :
    (offset_polygon demo_kernel demo_surface [demo_region] [] [] false 0 0 1 false 0).map
        (fun res => res.log) =
      some [[(demo_outer, 0)], [(demo_medium_hole, 0)], [(demo_small_hole, 0)],
        [(demo_big_hole, 0)]] ∧
    demo_kernel.area demo_medium_hole < demo_kernel.area demo_small_hole ∧
    |demo_kernel.area demo_medium_hole| < |demo_kernel.area demo_big_hole| := by
  refine ⟨by decide, by decide, by decide⟩

/-- C4, amended: in an iteration of the stitching loop on a pool of closed rings, the new
hole toolpath is opened, from index 0, with the front ring of the first non-empty hole list
in pass order (every earlier list is empty); that ring is then erased from its list. -/
theorem hole_toolpath_opens_with_first_pooled {F : Type} (K : Kernel) (S : Surface F)
    (mirror : Bool) (mirror_axis : Int) (rings : List (List Ring)) (i : Nat) (st : Stitch F)
    (hcl : closed_pool rings) (hfirst : find_first_nonempty rings = some i) :
    ∃ r biggest tail copies,
      stitch_step K S mirror mirror_axis rings i st = some r ∧
      rings[i]? = some (biggest :: tail) ∧
      (∀ j, j < i → rings[j]? = some []) ∧
      r.2.log = st.log ++ [(biggest, 0) :: copies] ∧
      r.2.toolpath = st.toolpath ++
        [copied_points S mirror mirror_axis ((biggest, 0) :: copies)] ∧
      r.1[i]? = some tail := by
  obtain ⟨pre, biggest, tail, post, later', st', copies, hr, hlen, hpre, hstep, htp, hlg, _⟩ :=
    stitch_step_spec K S mirror mirror_axis rings i st hcl hfirst
  subst hr
  refine ⟨_, biggest, tail, copies, hstep, ?_, ?_, hlg, htp, ?_⟩
  · rw [List.getElem?_append_right (by omega)]
    simp [hlen]
  · intro j hj
    have hjlt : j < pre.length := by omega
    rw [List.getElem?_append_left hjlt, List.getElem?_eq_getElem hjlt]
    exact congrArg some (hpre _ (List.getElem_mem _))
  · show (pre ++ tail :: later')[i]? = some tail
    rw [List.getElem?_append_right (by omega)]
    simp [hlen]

/-- Witness of C4 amended: the pool of one pass with the holes medium, small, big. -/
theorem hole_toolpath_opens_with_first_pooled_witness :
    ∃ r biggest tail copies,
      stitch_step demo_kernel demo_surface false 0
        [[], [demo_medium_hole, demo_small_hole, demo_big_hole]] 1 demo_stitch = some r ∧
      [[], [demo_medium_hole, demo_small_hole, demo_big_hole]][1]? = some (biggest :: tail) ∧
      (∀ j, j < 1 →
        [[], [demo_medium_hole, demo_small_hole, demo_big_hole]][j]? = some []) ∧
      r.2.log = demo_stitch.log ++ [(biggest, 0) :: copies] ∧
      r.2.toolpath = demo_stitch.toolpath ++
        [copied_points demo_surface false 0 ((biggest, 0) :: copies)] ∧
      r.1[1]? = some tail :=
  hole_toolpath_opens_with_first_pooled demo_kernel demo_surface false 0
    [[], [demo_medium_hole, demo_small_hole, demo_big_hole]] 1 demo_stitch
    (by decide) (by decide)

/-- C5: in an iteration of the stitching loop on a pool of closed rings, the hole toolpath
receives the opening ring and then the copies `copies`, which follow the specification's
chaining (`Chained`): scanning the later passes in order, a pass contributes at most one
ring, and the scan stops at the first pass offering no ring identical to the current ring
or nested in it and reachable.  Every copied ring is related to the one copied before it by
`nested_step` (covered by it, started at the vertex nearest to the last emitted point, the
joining segment covered by it reversed), and the copied rings come from strictly increasing
passes, all later than the opening ring's pass `i`. -/
theorem hole_chain_nested_reachable {F : Type} (K : Kernel) (S : Surface F)
    (mirror : Bool) (mirror_axis : Int) (rings : List (List Ring)) (i : Nat) (st : Stitch F)
    (hcl : closed_pool rings) (hfirst : find_first_nonempty rings = some i) :
    ∃ r biggest copies later' passes,
      stitch_step K S mirror mirror_axis rings i st = some r ∧
      r.2.log = st.log ++ [(biggest, 0) :: copies] ∧
      Chained K biggest (biggest.getD 0 (0, 0)) (rings.drop (i + 1)) copies later' ∧
      List.Chain (nested_step K) (biggest, 0) copies ∧
      passes.Pairwise (· < ·) ∧
      List.Forall₂ (fun q c => ∃ l, rings[i + 1 + q]? = some l ∧ c.1 ∈ l) passes copies := by
  obtain ⟨pre, biggest, tail, post, later', st', copies, hr, hlen, _, hstep, _, hlg, hch, _⟩ :=
    stitch_step_spec K S mirror mirror_axis rings i st hcl hfirst
  have hdrop : rings.drop (i + 1) = post := by
    rw [hr, ← hlen, List.drop_append]; rfl
  obtain ⟨passes, hp, hf⟩ := hch.passes
  refine ⟨_, biggest, copies, later', passes, hstep, hlg, by rw [hdrop]; exact hch,
    hch.steps 0 rfl, hp, hf.imp ?_⟩
  rintro q c ⟨l, hl, hc⟩
  refine ⟨l, ?_, hc⟩
  rw [← hdrop, List.getElem?_drop] at hl
  exact hl

/-- Witness of C5: the medium hole in pass 0 and the hole nested in it in pass 1. -/
theorem hole_chain_nested_reachable_witness :
    ∃ r biggest copies later' passes,
      stitch_step demo_kernel demo_surface false 0
        [[demo_medium_hole], [demo_nested_hole]] 0 demo_stitch = some r ∧
      r.2.log = demo_stitch.log ++ [(biggest, 0) :: copies] ∧
      Chained demo_kernel biggest (biggest.getD 0 (0, 0))
        ([[demo_medium_hole], [demo_nested_hole]].drop (0 + 1)) copies later' ∧
      List.Chain (nested_step demo_kernel) (biggest, 0) copies ∧
      passes.Pairwise (· < ·) ∧
      List.Forall₂ (fun q c => ∃ l,
        [[demo_medium_hole], [demo_nested_hole]][0 + 1 + q]? = some l ∧ c.1 ∈ l)
        passes copies :=
  hole_chain_nested_reachable demo_kernel demo_surface false 0
    [[demo_medium_hole], [demo_nested_hole]] 0 demo_stitch (by decide) (by decide)

/-- C6, counterexample: on the square with one hole, two passes of offset 0 pool the same
hole ring twice; the ring of pass 1, identical to the current ring, is consumed (both hole
lists end empty) but it is copied only once: the hole toolpath has the 5 points of one
copy. -/
theorem identical_ring_not_appended :
    (offset_polygon demo_kernel demo_surface [demo_frame] [] [] false 0 0 2 false 0).map
        (fun res => res.log) = some [[(demo_outer, 0)], [(demo_medium_hole, 0)]] ∧
    (offset_polygon demo_kernel demo_surface [demo_frame] [] [] false 0 0 2 false 0).map
        (fun res => res.rings) = some [[], []] ∧
    (offset_polygon demo_kernel demo_surface [demo_frame] [] [] false 0 0 2 false 0).map
        (fun res => res.toolpath.map List.length) = some [5, 5] ∧
    demo_kernel.equals_ring demo_medium_hole demo_medium_hole = true := by
  refine ⟨by decide, by decide, by decide, by decide⟩

/-- C6, amended: when the scan of a later pass's hole list reaches a ring `r` identical to
the current ring `prev` (the rings before it in the list are closed, not identical and not
nested-and-reachable), that ring is consumed from the pool and nothing is appended: the
scan goes on with the next passes from the same current ring and the same stitching
state. -/
theorem chain_identical_consumed_not_appended {F : Type} (K : Kernel) (S : Surface F)
    (mirror : Bool) (mirror_axis : Int) (pre : List Ring) (r : Ring) (post : List Ring)
    (rest : List (List Ring)) (prev : Ring) (st : Stitch F)
    (hpre : ∀ x ∈ pre, closed_ring x ∧ K.equals_ring x prev = false ∧
      ∀ s v, ¬ nested_reachable K prev st.last_point x s v)
    (heq : K.equals_ring r prev = true) :
    chain K S mirror mirror_axis ((pre ++ r :: post) :: rest) prev st =
      (chain K S mirror mirror_axis rest prev st).map
        (fun x => ((pre ++ post) :: x.1, x.2)) := by
  have hscan := scan_pass_identical K prev st.last_point r post heq pre 0 hpre
  have herase : (pre ++ r :: post).eraseIdx (0 + pre.length) = pre ++ post := by
    rw [Nat.zero_add, List.eraseIdx_append_of_length_le (le_refl _)]
    simp
  show chain K S mirror mirror_axis ((pre ++ r :: post) :: rest) prev st = _
  rw [chain]
  simp only [hscan, herase]
  cases chain K S mirror mirror_axis rest prev st <;> rfl

/-- Witness of C6 amended: the medium hole met again in the next pass, no pass after it. -/
theorem chain_identical_consumed_not_appended_witness :
    chain demo_kernel demo_surface false 0 (([] ++ demo_medium_hole :: []) :: [])
        demo_medium_hole demo_stitch =
      (chain demo_kernel demo_surface false 0 [] demo_medium_hole demo_stitch).map
        (fun x => (([] ++ []) :: x.1, x.2)) :=
  chain_identical_consumed_not_appended demo_kernel demo_surface false 0 [] demo_medium_hole []
    [] demo_medium_hole demo_stitch (by simp) (by decide)

end Pcb2gcode

namespace Pcb2gcode

/-- C7: `group_rings` returns, and its groups follow the specification (`Grouped`): each
group's top has an area greater than or equal to that of every ring ungrouped when the group
is opened, its holes are exactly the other ungrouped rings that are covered by the top and
covered by no ring other than themselves, and the tops come in non-increasing area order. -/
theorem group_rings_grouped {α : Type} [DecidableEq α] (area : α → Int)
    (covered_by : α → α → Bool) (rings : List α) :
    ∃ groups, group_rings area covered_by rings [] = some groups ∧
      Grouped area covered_by rings groups ∧
      groups.Pairwise (fun g g' => area g'.1 ≤ area g.1) := by
  obtain ⟨groups, hg, hspec⟩ :=
    group_rings_loop_spec area covered_by rings.length rings [] (le_refl _)
  exact ⟨groups, by simpa [group_rings] using hg, hspec, hspec.tops_sorted⟩

/-- C8: for a geometry of two regions, in either order, where the outer ring of the region
of smaller area is covered by the outer ring of the other, the outline `fill_outline`
assembles before buffering is one polygon: its outer ring is the larger region's outer ring
and its only inner ring is the smaller region's first inner ring if it has one, and the
smaller region's outer ring otherwise. -/
theorem filled_outline_two_nested (K : Kernel) (small big : Polygon)
    (harea : K.area small.outer < K.area big.outer)
    (hcov : K.covered_by small.outer big.outer = true) :
    filled_outline K [small, big] =
      some [{ outer := big.outer, inners := [hole_ring small] }] ∧
    filled_outline K [big, small] =
      some [{ outer := big.outer, inners := [hole_ring small] }] ∧
    (small.inners = [] → hole_ring small = small.outer) ∧
    (∀ inner rest, small.inners = inner :: rest → hole_ring small = inner) := by
  have hnot : ¬ K.area big.outer < K.area small.outer := by omega
  refine ⟨?_, ?_, ?_, ?_⟩
  · simp [filled_outline, group_rings, group_rings_loop, max_element, max_element_from,
      joins_group, List.enum, List.enumFrom, harea, hcov]
  · simp [filled_outline, group_rings, group_rings_loop, max_element, max_element_from,
      joins_group, List.enum, List.enumFrom, hnot, hcov]
  · intro h; simp [hole_ring, h]
  · intro inner rest h; simp [hole_ring, h]

/-- Witness of C8: the square frame and the medium square inside it. -/
theorem filled_outline_two_nested_witness :
    filled_outline demo_kernel [demo_island, demo_frame] =
      some [{ outer := demo_frame.outer, inners := [hole_ring demo_island] }] ∧
    filled_outline demo_kernel [demo_frame, demo_island] =
      some [{ outer := demo_frame.outer, inners := [hole_ring demo_island] }] ∧
    (demo_island.inners = [] → hole_ring demo_island = demo_island.outer) ∧
    (∀ inner rest, demo_island.inners = inner :: rest → hole_ring demo_island = inner) :=
  filled_outline_two_nested demo_kernel demo_island demo_frame (by decide) (by decide)

/-- C9, counterexample: for `scale = 1000` and a mill tolerance of `0`, the tolerance passed
to the Voronoi partitioner is `0`: it is not strictly positive, and it is not
`0.0001 * scale`. -/
theorem tolerance_zero_at_small_scale :
    (0 : Int) < 1000 ∧ ((0 : ℚ) * (1000 : Int) ≤ 0) ∧
    get_toolpath_tolerance 0 1000 = 0 ∧
    ((get_toolpath_tolerance 0 1000 : Int) : ℚ) ≠ 0.0001 * (1000 : Int) := by
  have h : get_toolpath_tolerance 0 1000 = 0 := by
    norm_num [get_toolpath_tolerance, to_coordinate]
  refine ⟨by decide, by norm_num, h, ?_⟩
  rw [h]
  norm_num

/-- C9, amended: for every `scale ≥ 10000` and every mill tolerance `t`, the tolerance
passed to the Voronoi partitioner is strictly positive: it is `t * scale` truncated to a
coordinate when that is positive, and `0.0001 * scale` truncated to a coordinate, which is
`scale / 10000`, otherwise. -/
theorem tolerance_positive_from_scale_10000 (t : ℚ) (scale : Int) (hscale : 10000 ≤ scale) :
    0 < get_toolpath_tolerance t scale ∧
    (0 < to_coordinate (t * scale) →
      get_toolpath_tolerance t scale = to_coordinate (t * scale)) ∧
    (to_coordinate (t * scale) ≤ 0 →
      get_toolpath_tolerance t scale = to_coordinate (0.0001 * scale) ∧
      to_coordinate (0.0001 * scale) = scale / 10000) := by
  have hq : (0.0001 : ℚ) * scale = (scale : ℚ) / ((10000 : ℕ) : ℚ) := by
    norm_num
    ring
  have hnonneg : (0 : ℚ) ≤ 0.0001 * scale := by
    have : (0 : ℚ) ≤ scale := by exact_mod_cast (by omega : (0 : Int) ≤ scale)
    positivity
  have hfloor : to_coordinate (0.0001 * scale) = scale / 10000 := by
    unfold to_coordinate
    rw [if_pos hnonneg, hq, Rat.floor_intCast_div_natCast]
    rfl
  have hpos : 0 < scale / 10000 := by omega
  unfold get_toolpath_tolerance
  refine ⟨?_, ?_, ?_⟩
  · by_cases h : to_coordinate (t * scale) ≤ 0
    · rw [if_pos h, hfloor]; exact hpos
    · rw [if_neg h]; omega
  · intro h
    rw [if_neg (by omega)]
  · intro h
    rw [if_pos h]
    exact ⟨rfl, hfloor⟩

/-- Witness of C9 amended: `scale = 1000000`, tolerance `0`. -/
theorem tolerance_positive_from_scale_10000_witness :
    0 < get_toolpath_tolerance 0 1000000 ∧
    (0 < to_coordinate (0 * (1000000 : Int)) →
      get_toolpath_tolerance 0 1000000 = to_coordinate (0 * (1000000 : Int))) ∧
    (to_coordinate (0 * (1000000 : Int)) ≤ 0 →
      get_toolpath_tolerance 0 1000000 = to_coordinate (0.0001 * (1000000 : Int)) ∧
      to_coordinate (0.0001 * (1000000 : Int)) = (1000000 : Int) / 10000) :=
  tolerance_positive_from_scale_10000 0 1000000 (by decide)

end Pcb2gcode

namespace Pcb2gcode

/-- C12, counterexample: for a bounding box from `min_x = 0` to `max_x = 1` and mirroring in
place, the axis is `0`, not the midpoint; the reflection sends `min_x` to `0`, not to
`max_x`, and sends `max_x` to `-1`, outside the box. -/
theorem mirror_axis_truncated_midpoint :
    get_toolpath_mirror_axis false 0 1 = 0 ∧
    2 * get_toolpath_mirror_axis false 0 1 ≠ 0 + 1 ∧
    2 * get_toolpath_mirror_axis false 0 1 - 0 ≠ 1 ∧
    ¬ (0 ≤ 2 * get_toolpath_mirror_axis false 0 1 - 1) := by
  decide

/-- C12, amended: the mirror axis is the bounding box's minimum x when `mirror_absolute` is
set, and otherwise `(min_x + max_x) / 2` in integral coordinates; when `min_x + max_x` is
even this is the exact midpoint, the reflection `x -> 2 * axis - x` maps `min_x` to `max_x`,
`max_x` to `min_x` and every `x` of `[min_x, max_x]` into `[min_x, max_x]`, and `push_point`
emits for the mirrored `min_x` what it emits without mirroring for `max_x`. -/
theorem mirror_axis_even_midpoint {F : Type} (S : Surface F) (min_x max_x y : Int)
    (heven : (min_x + max_x) % 2 = 0) :
    get_toolpath_mirror_axis true min_x max_x = min_x ∧
    2 * get_toolpath_mirror_axis false min_x max_x = min_x + max_x ∧
    2 * get_toolpath_mirror_axis false min_x max_x - min_x = max_x ∧
    2 * get_toolpath_mirror_axis false min_x max_x - max_x = min_x ∧
    (∀ x, min_x ≤ x → x ≤ max_x →
      min_x ≤ 2 * get_toolpath_mirror_axis false min_x max_x - x ∧
      2 * get_toolpath_mirror_axis false min_x max_x - x ≤ max_x) ∧
    emit_point S true (get_toolpath_mirror_axis false min_x max_x) (min_x, y) =
      emit_point S false (get_toolpath_mirror_axis false min_x max_x) (max_x, y) := by
  have hmid : 2 * get_toolpath_mirror_axis false min_x max_x = min_x + max_x := by
    obtain ⟨k, hk⟩ := Int.dvd_of_emod_eq_zero heven
    simp only [get_toolpath_mirror_axis, Bool.false_eq_true, if_false]
    rw [hk, Int.mul_tdiv_cancel_left _ (by decide)]
  refine ⟨by simp [get_toolpath_mirror_axis], hmid, by omega, by omega,
    fun x h1 h2 => ⟨by omega, by omega⟩, ?_⟩
  have : 2 * get_toolpath_mirror_axis false min_x max_x - min_x = max_x := by omega
  simp [emit_point, this]

/-- Witness of C12 amended: the bounding box from `-3` to `7`. -/
theorem mirror_axis_even_midpoint_witness :
    get_toolpath_mirror_axis true (-3) 7 = -3 ∧
    2 * get_toolpath_mirror_axis false (-3) 7 = -3 + 7 ∧
    2 * get_toolpath_mirror_axis false (-3) 7 - (-3) = 7 ∧
    2 * get_toolpath_mirror_axis false (-3) 7 - 7 = -3 ∧
    (∀ x, -3 ≤ x → x ≤ 7 →
      -3 ≤ 2 * get_toolpath_mirror_axis false (-3) 7 - x ∧
      2 * get_toolpath_mirror_axis false (-3) 7 - x ≤ 7) ∧
    emit_point demo_surface true (get_toolpath_mirror_axis false (-3) 7) (-3, 0) =
      emit_point demo_surface false (get_toolpath_mirror_axis false (-3) 7) (7, 0) :=
  mirror_axis_even_midpoint demo_surface (-3) 7 0 (by decide)

/-- C14, counterexample: for a tool diameter of `1/10`, `scale = 5` and a geometry of
dimensions `0`, the offset distance is `2`, less than `5 * d * scale = 5/2`. -/
theorem voronoi_offset_below_five_diameters :
    get_toolpath_voronoi_offset (1 / 10) 0 0 5 = 2 ∧
    ((get_toolpath_voronoi_offset (1 / 10) 0 0 5 : Int) : ℚ) < 5 * (1 / 10) * (5 : Int) := by
  have h : get_toolpath_voronoi_offset (1 / 10) 0 0 5 = 2 := by
    unfold get_toolpath_voronoi_offset to_coordinate
    norm_num
  refine ⟨h, ?_⟩
  rw [h]
  norm_num

/-- C14, amended: for a tool diameter `d ≥ 0` and `scale > 0`, the offset distance passed to
the Voronoi partitioner is the larger of `5 * d * scale` and `10 * scale` times the largest
dimension, truncated to an integral coordinate: it is at most that larger value and less
than one unit below it, and it is at least each of the two values truncated. -/
theorem voronoi_offset_truncated_max (d w h : ℚ) (scale : Int) (hd : 0 ≤ d)
    (hscale : 0 < scale) :
    get_toolpath_voronoi_offset d w h scale = ⌊max (d * scale * 5) (max w h * scale * 10)⌋ ∧
    ((get_toolpath_voronoi_offset d w h scale : Int) : ℚ) ≤
      max (d * scale * 5) (max w h * scale * 10) ∧
    max (d * scale * 5) (max w h * scale * 10) <
      ((get_toolpath_voronoi_offset d w h scale : Int) : ℚ) + 1 ∧
    to_coordinate (d * scale * 5) ≤ get_toolpath_voronoi_offset d w h scale ∧
    to_coordinate (max w h * scale * 10) ≤ get_toolpath_voronoi_offset d w h scale := by
  have hs : (0 : ℚ) < scale := by exact_mod_cast hscale
  have hnonneg : (0 : ℚ) ≤ max (d * scale * 5) (max w h * scale * 10) :=
    le_max_of_le_left (by positivity)
  have hfloor : get_toolpath_voronoi_offset d w h scale =
      ⌊max (d * scale * 5) (max w h * scale * 10)⌋ := by
    unfold get_toolpath_voronoi_offset to_coordinate
    rw [if_pos hnonneg]
  refine ⟨hfloor, ?_, ?_, ?_, ?_⟩
  · rw [hfloor]; exact Int.floor_le _
  · rw [hfloor]; exact Int.lt_floor_add_one _
  · exact to_coordinate_mono (le_max_left _ _)
  · exact to_coordinate_mono (le_max_right _ _)

/-- Witness of C14 amended: a tool of diameter `1/10` on a 2 by 3 board at scale 1000. -/
theorem voronoi_offset_truncated_max_witness :
    get_toolpath_voronoi_offset (1 / 10) 2 3 1000 =
      ⌊max ((1 / 10 : ℚ) * (1000 : Int) * 5) (max 2 3 * (1000 : Int) * 10)⌋ ∧
    ((get_toolpath_voronoi_offset (1 / 10) 2 3 1000 : Int) : ℚ) ≤
      max ((1 / 10 : ℚ) * (1000 : Int) * 5) (max 2 3 * (1000 : Int) * 10) ∧
    max ((1 / 10 : ℚ) * (1000 : Int) * 5) (max 2 3 * (1000 : Int) * 10) <
      ((get_toolpath_voronoi_offset (1 / 10) 2 3 1000 : Int) : ℚ) + 1 ∧
    to_coordinate ((1 / 10 : ℚ) * (1000 : Int) * 5) ≤
      get_toolpath_voronoi_offset (1 / 10) 2 3 1000 ∧
    to_coordinate (max 2 3 * (1000 : Int) * 10) ≤
      get_toolpath_voronoi_offset (1 / 10) 2 3 1000 :=
  voronoi_offset_truncated_max (1 / 10) 2 3 1000 (by norm_num) (by decide)

/-- C16: for a non-empty set of prepared layers whose extents are inside the sentinels,
`createLayers` computes the board extent from `room`, the componentwise minimum of the
importers' `min_x`, `min_y` and maximum of their `max_x`, `max_y`: the extent is `room`
itself when a layer is named "outline", and `room` enlarged by `margin` on every side when
none is. -/
theorem createLayers_extent_min_max (prepared_layers : List (String × Extent)) (margin : ℚ)
    (hne : prepared_layers ≠ [])
    (hin : ∀ l ∈ prepared_layers, l.2.min_x ≤ 10000 ∧ -10000 ≤ l.2.max_x ∧
      l.2.min_y ≤ 10000 ∧ -10000 ≤ l.2.max_y) :
    ∃ room : Extent,
      ((∃ l ∈ prepared_layers, room.min_x = l.2.min_x) ∧
        ∀ l ∈ prepared_layers, room.min_x ≤ l.2.min_x) ∧
      ((∃ l ∈ prepared_layers, room.max_x = l.2.max_x) ∧
        ∀ l ∈ prepared_layers, l.2.max_x ≤ room.max_x) ∧
      ((∃ l ∈ prepared_layers, room.min_y = l.2.min_y) ∧
        ∀ l ∈ prepared_layers, room.min_y ≤ l.2.min_y) ∧
      ((∃ l ∈ prepared_layers, room.max_y = l.2.max_y) ∧
        ∀ l ∈ prepared_layers, l.2.max_y ≤ room.max_y) ∧
      ((∃ l ∈ prepared_layers, l.1 = "outline") →
        createLayers_extent prepared_layers margin = room) ∧
      ((¬ ∃ l ∈ prepared_layers, l.1 = "outline") →
        createLayers_extent prepared_layers margin =
          { min_x := room.min_x - margin, max_x := room.max_x + margin,
            min_y := room.min_y - margin, max_y := room.max_y + margin }) := by
  obtain ⟨⟨a1, a2, a3⟩, ⟨b1, b2, b3⟩, ⟨c1, c2, c3⟩, ⟨d1, d2, d3⟩⟩ :=
    room_needed_spec prepared_layers
      { min_x := 10000, max_x := -10000, min_y := 10000, max_y := -10000 }
  obtain ⟨l0, hl0⟩ := List.exists_mem_of_ne_nil _ hne
  obtain ⟨h1, h2, h3, h4⟩ := hin l0 hl0
  refine ⟨_, ⟨?_, a2⟩, ⟨?_, b2⟩, ⟨?_, c2⟩, ⟨?_, d2⟩, ?_, ?_⟩
  · rcases a3 with h | h
    · exact ⟨l0, hl0, le_antisymm (a2 l0 hl0) (by rw [h]; exact h1)⟩
    · exact h
  · rcases b3 with h | h
    · exact ⟨l0, hl0, le_antisymm (by rw [h]; exact h2) (b2 l0 hl0)⟩
    · exact h
  · rcases c3 with h | h
    · exact ⟨l0, hl0, le_antisymm (c2 l0 hl0) (by rw [h]; exact h3)⟩
    · exact h
  · rcases d3 with h | h
    · exact ⟨l0, hl0, le_antisymm (by rw [h]; exact h4) (d2 l0 hl0)⟩
    · exact h
  · rintro ⟨l, hl, hname⟩
    unfold createLayers_extent
    rw [if_pos]
    exact List.any_eq_true.mpr ⟨l, hl, by simp [hname]⟩
  · intro hnone
    unfold createLayers_extent
    rw [if_neg]
    intro hany
    obtain ⟨l, hl, hname⟩ := List.any_eq_true.mp hany
    exact hnone ⟨l, hl, by simpa using hname⟩

/-- Witness of C16: the layers "back" and "front" with a margin of `1/2`. -/
theorem createLayers_extent_min_max_witness :
    ∃ room : Extent,
      ((∃ l ∈ demo_layers, room.min_x = l.2.min_x) ∧
        ∀ l ∈ demo_layers, room.min_x ≤ l.2.min_x) ∧
      ((∃ l ∈ demo_layers, room.max_x = l.2.max_x) ∧
        ∀ l ∈ demo_layers, l.2.max_x ≤ room.max_x) ∧
      ((∃ l ∈ demo_layers, room.min_y = l.2.min_y) ∧
        ∀ l ∈ demo_layers, room.min_y ≤ l.2.min_y) ∧
      ((∃ l ∈ demo_layers, room.max_y = l.2.max_y) ∧
        ∀ l ∈ demo_layers, l.2.max_y ≤ room.max_y) ∧
      ((∃ l ∈ demo_layers, l.1 = "outline") →
        createLayers_extent demo_layers (1 / 2) = room) ∧
      ((¬ ∃ l ∈ demo_layers, l.1 = "outline") →
        createLayers_extent demo_layers (1 / 2) =
          { min_x := room.min_x - 1 / 2, max_x := room.max_x + 1 / 2,
            min_y := room.min_y - 1 / 2, max_y := room.max_y + 1 / 2 }) :=
  createLayers_extent_min_max demo_layers (1 / 2) (by simp [demo_layers])
    (by simp [demo_layers]; norm_num)

/-- C17: for a closed ring with at least 2 points, `find_closest_point_index` returns an
index below `size - 1`; from every `start < size - 1`, `copy_ring_to_toolpath` returns after
emitting exactly `size` points, the positions `(start + t) mod (size - 1)` for
`t = 0 .. size - 2` followed by the position `start` again, and sets `last_point` to
`ring[start]`; from `start = size - 1` its loop never exits, whatever the fuel. -/
theorem closed_ring_copy_terminates {F : Type} (S : Surface F) (mirror : Bool)
    (mirror_axis : Int) (ring : Ring) (hclosed : closed_ring ring) :
    (∀ last_point, ∃ s, find_closest_point_index ring last_point = some s ∧
      s < ring.length - 1) ∧
    (∀ (start : Nat) (st : Stitch F) (tp : List (List (F × F))) (p : List (F × F))
        (lg : List (List (Ring × Nat))) (l : List (Ring × Nat)),
      start < ring.length - 1 → st.toolpath = tp ++ [p] → st.log = lg ++ [l] →
      copy_ring_to_toolpath S mirror mirror_axis ring start st =
        some { toolpath := tp ++ [p ++ (ring_from ring start).map
                                    (emit_point S mirror mirror_axis)]
               last_point := ring.getD start (0, 0)
               log := lg ++ [l ++ [(ring, start)]] } ∧
      (ring_from ring start).length = ring.length ∧
      (∀ t, t < ring.length - 1 → (ring_from ring start)[t]? =
        some (ring.getD ((start + t) % (ring.length - 1)) (0, 0))) ∧
      (ring_from ring start)[ring.length - 1]? = some (ring.getD start (0, 0))) ∧
    (∀ (fuel : Nat) (tp : List (List (F × F))),
      copy_ring_loop S mirror mirror_axis ring (ring.length - 1) fuel (ring.length - 1) tp =
        none) := by
  refine ⟨fun last_point => find_closest_closed ring last_point hclosed, ?_, ?_⟩
  · intro start st tp p lg l hs htp hlg
    exact ⟨copy_ring_to_toolpath_eq S mirror mirror_axis ring start st tp p lg l hs htp hlg,
      ring_from_length ring start (by have := hclosed.1; omega),
      fun t ht => ring_from_getElem? ring start t ht, ring_from_getElem?_last ring start⟩
  · intro fuel tp
    exact copy_ring_loop_last_never S mirror mirror_axis ring hclosed.1 fuel tp

/-- Witness of C17: the clockwise square of side 100. -/
theorem closed_ring_copy_terminates_witness :
    (∀ last_point, ∃ s, find_closest_point_index demo_outer last_point = some s ∧
      s < demo_outer.length - 1) ∧
    (∀ (start : Nat) (st : Stitch ℚ) (tp : List (List (ℚ × ℚ))) (p : List (ℚ × ℚ))
        (lg : List (List (Ring × Nat))) (l : List (Ring × Nat)),
      start < demo_outer.length - 1 → st.toolpath = tp ++ [p] → st.log = lg ++ [l] →
      copy_ring_to_toolpath demo_surface false 0 demo_outer start st =
        some { toolpath := tp ++ [p ++ (ring_from demo_outer start).map
                                    (emit_point demo_surface false 0)]
               last_point := demo_outer.getD start (0, 0)
               log := lg ++ [l ++ [(demo_outer, start)]] } ∧
      (ring_from demo_outer start).length = demo_outer.length ∧
      (∀ t, t < demo_outer.length - 1 → (ring_from demo_outer start)[t]? =
        some (demo_outer.getD ((start + t) % (demo_outer.length - 1)) (0, 0))) ∧
      (ring_from demo_outer start)[demo_outer.length - 1]? =
        some (demo_outer.getD start (0, 0))) ∧
    (∀ (fuel : Nat) (tp : List (List (ℚ × ℚ))),
      copy_ring_loop demo_surface false 0 demo_outer (demo_outer.length - 1) fuel
        (demo_outer.length - 1) tp = none) :=
  closed_ring_copy_terminates demo_surface false 0 demo_outer (by decide)

/-- C18: for a list of distinct rings `group_rings` returns, and its output partitions the
input: the tops and holes of the groups, taken together, are a permutation of the input
without repetition (every input ring is the top or a hole of exactly one group, and nothing
else appears), and there are at most as many groups as input rings. -/
theorem group_rings_partition {α : Type} [DecidableEq α] (area : α → Int)
    (covered_by : α → α → Bool) (rings : List α) (hdistinct : rings.Nodup) :
    ∃ groups, group_rings area covered_by rings [] = some groups ∧
      (groups.flatMap (fun g => g.1 :: g.2)).Perm rings ∧
      (groups.flatMap (fun g => g.1 :: g.2)).Nodup ∧
      (∀ r, r ∈ rings → (groups.flatMap (fun g => g.1 :: g.2)).count r = 1) ∧
      (∀ r, r ∉ rings → r ∉ groups.flatMap (fun g => g.1 :: g.2)) ∧
      groups.length ≤ rings.length := by
  obtain ⟨groups, hg, hperm, hlen⟩ :=
    group_rings_loop_partition area covered_by rings.length rings [] (le_refl _)
  refine ⟨groups, by simpa [group_rings] using hg, hperm, hperm.nodup_iff.mpr hdistinct, ?_,
    ?_, hlen⟩
  · intro r hr
    rw [hperm.count_eq r]
    exact List.count_eq_one_of_mem hdistinct hr
  · intro r hr hmem
    exact hr (hperm.subset hmem)

/-- Witness of C18: four rings named by their areas, ordered by inclusion. -/
theorem group_rings_partition_witness :
    ∃ groups, group_rings (fun x : Int => x) (fun a b => decide (a ≤ b)) [3, 5, 1, 4] [] =
        some groups ∧
      (groups.flatMap (fun g => g.1 :: g.2)).Perm [3, 5, 1, 4] ∧
      (groups.flatMap (fun g => g.1 :: g.2)).Nodup ∧
      (∀ r, r ∈ [3, 5, 1, 4] → (groups.flatMap (fun g => g.1 :: g.2)).count r = 1) ∧
      (∀ r, r ∉ [3, 5, 1, 4] → r ∉ groups.flatMap (fun g => g.1 :: g.2)) ∧
      groups.length ≤ [3, 5, 1, 4].length :=
  group_rings_partition (fun x : Int => x) (fun a b => decide (a ≤ b)) [3, 5, 1, 4]
    (by decide)

end Pcb2gcode

namespace Pcb2gcode

/-- C13: for every non-empty ring and last emitted point, `find_closest_point_index`
returns an index whose vertex is at a squared distance from the last point less than or
equal to that of every vertex, and strictly less than that of every vertex of lower index;
and in `offset_polygon` (offset `≥ 0`, pass polygons with closed rings) the outer rings
copied into the first toolpath are those of the first passes in order, the first from index
0 and each later one from the index `find_closest_point_index` gives for the start vertex of
the copy before it, which is the last emitted point. -/
theorem outer_ring_resumes_at_closest_vertex {F : Type} (K : Kernel) (S : Surface F)
    (input voronoi : MultiPolygon) (toolpath : List (List (F × F))) (contentions : Bool)
    (offset : Int) (index steps : Nat) (mirror : Bool) (mirror_axis : Int)
    (P : Nat → Polygon) (C : Nat → Bool)
    (hoffset : 0 ≤ offset) (hsteps : 1 ≤ steps)
    (hP : ∀ i, i < steps → pass_polygon K S input voronoi offset index i = some (P i, C i))
    (hO : ∀ i, i < steps → closed_ring (P i).outer)
    (hI : ∀ i, i < steps → ∀ r ∈ (P i).inners, closed_ring r) :
    (∀ (ring : Ring) (last_point : Point), ring ≠ [] →
      ∃ s, find_closest_point_index ring last_point = some s ∧ s < ring.length ∧
        (∀ j, j < ring.length →
          comparable_distance (ring.getD s (0, 0)) last_point ≤
            comparable_distance (ring.getD j (0, 0)) last_point) ∧
        (∀ j, j < s →
          comparable_distance (ring.getD s (0, 0)) last_point <
            comparable_distance (ring.getD j (0, 0)) last_point)) ∧
    ∃ res cs,
      offset_polygon K S input voronoi toolpath contentions offset index steps mirror
        mirror_axis = some res ∧
      res.log[toolpath.length]? = some cs ∧
      cs.head? = some ((P 0).outer, 0) ∧
      cs.map Prod.fst = (List.range cs.length).map (fun j => (P j).outer) ∧
      List.Chain' closest_step cs := by
  refine ⟨fun ring last_point h => find_closest_point_index_spec ring last_point h, ?_⟩
  have hcount : pass_count offset steps = steps := by
    unfold pass_count; rw [if_neg (by omega)]
  obtain ⟨a, r, _, hinv, hstart, hcl, hst, hres⟩ :=
    offset_polygon_run K S input voronoi toolpath contentions offset index steps mirror
      mirror_axis P C (by omega) (by rw [hcount]; exact hP) (by rw [hcount]; exact hO)
      (by rw [hcount]; exact hI)
  obtain ⟨rings', st', extra, extralog, hst', _, hlg, _⟩ :=
    stitch_loop_spec K S mirror mirror_axis (pool_size a.rings + 1) a.rings a.st
      (by omega) hcl
  rw [hst, Option.some.injEq] at hst'
  subst hst'
  obtain ⟨_, _, _, k, cs', _, _, _, _, _, _, halg, hlen, hfst, hhead⟩ := hinv
  obtain ⟨cs, halg', hchain, _⟩ := hstart
  have hcs : cs' = cs := by
    rw [halg] at halg'
    have := List.append_cancel_left halg'
    simpa using this
  subst hcs
  refine ⟨_, cs', hres, ?_, hhead, by rw [hlen]; exact hfst, hchain⟩
  show (st'.log)[toolpath.length]? = some cs'
  rw [hlg, halg, List.append_assoc, List.getElem?_append_right (by simp)]
  simp

/-- Witness of C13: the square with one hole, grown twice by 4 inside its cell. -/
theorem outer_ring_resumes_at_closest_vertex_witness :
    (∀ (ring : Ring) (last_point : Point), ring ≠ [] →
      ∃ s, find_closest_point_index ring last_point = some s ∧ s < ring.length ∧
        (∀ j, j < ring.length →
          comparable_distance (ring.getD s (0, 0)) last_point ≤
            comparable_distance (ring.getD j (0, 0)) last_point) ∧
        (∀ j, j < s →
          comparable_distance (ring.getD s (0, 0)) last_point <
            comparable_distance (ring.getD j (0, 0)) last_point)) ∧
    ∃ res cs,
      offset_polygon demo_grow_kernel demo_surface [demo_frame] [demo_cell] [] false 4 0 2
        false 0 = some res ∧
      res.log[0]? = some cs ∧
      cs.head? = some ((demo_pass 0).outer, 0) ∧
      cs.map Prod.fst = (List.range cs.length).map (fun j => (demo_pass j).outer) ∧
      List.Chain' closest_step cs :=
  outer_ring_resumes_at_closest_vertex demo_grow_kernel demo_surface [demo_frame] [demo_cell]
    [] false 4 0 2 false 0 demo_pass (fun j => decide (j = 1)) (by decide) (by decide)
    (fun i hi => by interval_cases i <;> decide)
    (fun i hi => by interval_cases i <;> decide)
    (fun i hi => by interval_cases i <;> decide)

end Pcb2gcode

namespace Pcb2gcode

/-- C11: in `get_toolpath`, with the arguments it gives to `offset_polygon` and pass
polygons that exist and have closed rings: a call of `offset_polygon` for a region returns,
never clears the contention flag, and leaves it set exactly when it was set before or some
pass `j` raised it; a pass raises it exactly when the offset is positive and the clipped
polygon is not `bg::equals` to the unclipped buffer of the region by `offset * (j + 1)`;
and `get_toolpath` returns having written the clearance warning at most once, exactly when
the flag is set after the loop over the regions, that is when some pass of some region
raised it. -/
theorem contention_flag_and_warning {F : Type} (K : Kernel) (X : Collaborators F)
    (S : Surface F) (G : Geometry) (mill : Mill) (mirror mirror_absolute : Bool)
    (input voronoi : MultiPolygon) (grow : Int) (steps : Nat) (mirror_axis : Int)
    (P : Nat → Nat → Polygon) (C : Nat → Nat → Bool)
    (hinput : input = X.unique G.vectorial_surface)
    (hvoronoi : voronoi = X.build_voronoi input
      (get_toolpath_voronoi_offset mill.tool_diameter G.width_in G.height_in S.scale)
      (get_toolpath_tolerance mill.tolerance S.scale))
    (hgrow : grow = to_coordinate (mill.tool_diameter / 2 * S.scale))
    (hsteps : steps = (match mill.extra_passes with
      | some extra_passes => extra_passes
      | none => 0) + 1)
    (haxis : mirror_axis = get_toolpath_mirror_axis mirror_absolute G.min_x G.max_x)
    (hP : ∀ idx, idx < input.length → ∀ j, j < pass_count grow steps →
      pass_polygon K S input voronoi grow idx j = some (P idx j, C idx j))
    (hO : ∀ idx, idx < input.length → ∀ j, j < pass_count grow steps →
      closed_ring (P idx j).outer)
    (hI : ∀ idx, idx < input.length → ∀ j, j < pass_count grow steps →
      ∀ r ∈ (P idx j).inners, closed_ring r) :
    (∀ (idx : Nat) (toolpath : List (List (F × F))) (contentions : Bool),
      idx < input.length →
      ∃ res, offset_polygon K S input voronoi toolpath contentions grow idx steps mirror
          mirror_axis = some res ∧
        (contentions = true → res.contentions = true) ∧
        (res.contentions = true ↔
          contentions = true ∨ ∃ j, j < pass_count grow steps ∧ C idx j = true)) ∧
    (∀ idx j, idx < input.length → j < pass_count grow steps →
      (C idx j = true ↔ 0 < grow ∧ ∃ region buffered, input[idx]? = some region ∧
        (K.buffer region (grow * ((j : Int) + 1)))[0]? = some buffered ∧
        K.equals_polygon (P idx j) buffered = false)) ∧
    ∃ out, get_toolpath K X S G mill mirror mirror_absolute = some out ∧
      out.warnings.length ≤ 1 ∧
      (out.warnings = [clearance_warning] ↔ out.contentions = true) ∧
      (out.warnings = [] ↔ out.contentions = false) ∧
      (out.contentions = true ↔
        ∃ idx j, idx < input.length ∧ j < pass_count grow steps ∧ C idx j = true) := by
  have hcount : 1 ≤ pass_count grow steps := by
    unfold pass_count
    split
    · exact le_refl _
    · rw [hsteps]; omega
  refine ⟨?_, ?_, ?_⟩
  · intro idx toolpath contentions hidx
    obtain ⟨res, a, _, _, hres, hinv, _, hcont, _, _, _⟩ :=
      offset_polygon_spec K S input voronoi toolpath contentions grow idx steps mirror
        mirror_axis (P idx) (C idx) hcount (hP idx hidx) (hO idx hidx) (hI idx hidx)
    have hc : res.contentions =
        (contentions || (List.range (pass_count grow steps)).any (C idx)) := by
      rw [hcont, hinv.2.2.1]
    refine ⟨res, hres, ?_, ?_⟩
    · intro h; rw [hc, h]; rfl
    · rw [hc]
      simp only [Bool.or_eq_true, List.any_eq_true, List.mem_range]
  · intro idx j hidx hj
    exact pass_polygon_contended K S input voronoi grow idx j (P idx j) (C idx j)
      (hP idx hidx j hj)
  · obtain ⟨r, hr, hr2⟩ := region_loop_spec K S input voronoi grow steps mirror mirror_axis
      P C hcount hP hO hI input.length 0 [] false (by omega)
    have hget : get_toolpath K X S G mill mirror mirror_absolute =
        some { toolpath :=
                 if mill.optimise then
                   (X.nearest_neighbour r.1).map (fun ring => X.simplify ring mill.tolerance)
                 else X.nearest_neighbour r.1
               warnings := if r.2 then [clearance_warning] else []
               contentions := r.2 } := by
      unfold get_toolpath
      rw [← hinput, ← hvoronoi, ← hgrow, ← hsteps, ← haxis, hr]
    refine ⟨_, hget, ?_, ?_, ?_, ?_⟩
    · show (if r.2 then [clearance_warning] else []).length ≤ 1
      split <;> simp
    · show (if r.2 then [clearance_warning] else []) = [clearance_warning] ↔ r.2 = true
      cases r.2 <;> simp
    · show (if r.2 then [clearance_warning] else []) = [] ↔ r.2 = false
      cases r.2 <;> simp
    · show r.2 = true ↔ _
      rw [hr2]
      simp only [Bool.false_or, List.any_eq_true, List.mem_range, Nat.zero_add]
      constructor
      · rintro ⟨idx, hidx, j, hj, hc⟩
        exact ⟨idx, j, hidx, hj, hc⟩
      · rintro ⟨idx, j, hidx, hj, hc⟩
        exact ⟨idx, hidx, j, hj, hc⟩

/-- Witness of C11: the square with one hole, a tool of diameter `1/125` at scale 1000 and
one extra pass; the second pass is clipped by the cell. -/
theorem contention_flag_and_warning_witness :
    (∀ (idx : Nat) (toolpath : List (List (ℚ × ℚ))) (contentions : Bool),
      idx < [demo_frame].length →
      ∃ res, offset_polygon demo_grow_kernel demo_surface [demo_frame] [demo_cell] toolpath
          contentions 4 idx 2 false 50 = some res ∧
        (contentions = true → res.contentions = true) ∧
        (res.contentions = true ↔
          contentions = true ∨ ∃ j, j < pass_count 4 2 ∧ decide (j = 1) = true)) ∧
    (∀ idx j, idx < [demo_frame].length → j < pass_count 4 2 →
      (decide (j = 1) = true ↔ 0 < (4 : Int) ∧ ∃ region buffered,
        [demo_frame][idx]? = some region ∧
        (demo_grow_kernel.buffer region (4 * ((j : Int) + 1)))[0]? = some buffered ∧
        demo_grow_kernel.equals_polygon (demo_pass j) buffered = false)) ∧
    ∃ out, get_toolpath demo_grow_kernel demo_collaborators demo_surface demo_geometry
        demo_mill false false = some out ∧
      out.warnings.length ≤ 1 ∧
      (out.warnings = [clearance_warning] ↔ out.contentions = true) ∧
      (out.warnings = [] ↔ out.contentions = false) ∧
      (out.contentions = true ↔
        ∃ idx j, idx < [demo_frame].length ∧ j < pass_count 4 2 ∧ decide (j = 1) = true) :=
  contention_flag_and_warning demo_grow_kernel demo_collaborators demo_surface demo_geometry
    demo_mill false false [demo_frame] [demo_cell] 4 2 50 (fun _ j => demo_pass j)
    (fun _ j => decide (j = 1)) rfl rfl
    (by norm_num [to_coordinate, demo_mill, demo_surface]) rfl (by decide)
    (fun idx hidx j hj => by
      have h0 : idx = 0 := by simpa using hidx
      subst h0
      have hj2 : j < 2 := hj
      interval_cases j <;> decide)
    (fun idx _ j hj => by
      have hj2 : j < 2 := hj
      interval_cases j
      · exact (by decide : closed_ring (demo_pass 0).outer)
      · exact (by decide : closed_ring (demo_pass 1).outer))
    (fun idx _ j hj => by
      have hj2 : j < 2 := hj
      interval_cases j
      · exact (by decide : ∀ r ∈ (demo_pass 0).inners, closed_ring r)
      · exact (by decide : ∀ r ∈ (demo_pass 1).inners, closed_ring r))

/-- C15: on a pool of closed hole rings the stitching loop of `offset_polygon` terminates:
it makes `n ≤ pool size` iterations (it returns with every fuel above `n`, in particular
with the fuel `offset_polygon` gives it, and not with `n`), appends exactly `n` hole
toolpaths, and ends with every pass's hole list empty; the pooled rings are, counted with
multiplicity, the rings copied into the hole toolpaths together with the rings `dropped` as
identical, so each is consumed exactly once; and for a single pass there is one toolpath
per hole ring, copied from index 0, in the hole order. -/
theorem stitch_loop_exhausts_pool {F : Type} (K : Kernel) (S : Surface F) (mirror : Bool)
    (mirror_axis : Int) (rings : List (List Ring)) (st : Stitch F)
    (hclosed : closed_pool rings) :
    ∃ (n : Nat) (res : List (List Ring) × Stitch F) (extra : List (List (F × F)))
      (extralog : List (List (Ring × Nat))) (dropped : List Ring),
      n ≤ pool_size rings ∧
      (∀ fuel, n < fuel → stitch_loop K S mirror mirror_axis fuel rings st = some res) ∧
      stitch_loop K S mirror mirror_axis (pool_size rings + 1) rings st = some res ∧
      stitch_loop K S mirror mirror_axis n rings st = none ∧
      res.2.toolpath = st.toolpath ++ extra ∧ res.2.log = st.log ++ extralog ∧
      extra.length = n ∧ extralog.length = n ∧
      (∀ l ∈ res.1, l = []) ∧ res.1.length = rings.length ∧
      ((extralog.flatten.map Prod.fst) ++ dropped).Perm rings.flatten ∧
      (∀ l, rings = [l] → extralog = l.map (fun x => [(x, 0)])) := by
  obtain ⟨n, rings', st', extra, extralog, dropped, hn, hsome, hnone, htp, hlg, hex, hexl, hall,
    hlen, hperm, hsingle⟩ :=
    stitch_loop_run K S mirror mirror_axis (pool_size rings) rings st (le_refl _) hclosed
  exact ⟨n, (rings', st'), extra, extralog, dropped, hn, hsome, hsome _ (by omega), hnone, htp,
    hlg, hex, hexl, hall, hlen, hperm, hsingle⟩

/-- Witness of C15: three passes, the nested hole pooled in the last two. -/
theorem stitch_loop_exhausts_pool_witness :
    ∃ (n : Nat) (res : List (List Ring) × Stitch ℚ) (extra : List (List (ℚ × ℚ)))
      (extralog : List (List (Ring × Nat))) (dropped : List Ring),
      n ≤ pool_size [[demo_medium_hole, demo_big_hole], [demo_nested_hole],
        [demo_nested_hole]] ∧
      (∀ fuel, n < fuel → stitch_loop demo_kernel demo_surface false 0 fuel
        [[demo_medium_hole, demo_big_hole], [demo_nested_hole], [demo_nested_hole]]
        demo_stitch = some res) ∧
      stitch_loop demo_kernel demo_surface false 0
        (pool_size [[demo_medium_hole, demo_big_hole], [demo_nested_hole],
          [demo_nested_hole]] + 1)
        [[demo_medium_hole, demo_big_hole], [demo_nested_hole], [demo_nested_hole]]
        demo_stitch = some res ∧
      stitch_loop demo_kernel demo_surface false 0 n
        [[demo_medium_hole, demo_big_hole], [demo_nested_hole], [demo_nested_hole]]
        demo_stitch = none ∧
      res.2.toolpath = demo_stitch.toolpath ++ extra ∧
      res.2.log = demo_stitch.log ++ extralog ∧
      extra.length = n ∧ extralog.length = n ∧
      (∀ l ∈ res.1, l = []) ∧
      res.1.length = [[demo_medium_hole, demo_big_hole], [demo_nested_hole],
        [demo_nested_hole]].length ∧
      ((extralog.flatten.map Prod.fst) ++ dropped).Perm
        [[demo_medium_hole, demo_big_hole], [demo_nested_hole], [demo_nested_hole]].flatten ∧
      (∀ l, [[demo_medium_hole, demo_big_hole], [demo_nested_hole], [demo_nested_hole]] = [l] →
        extralog = l.map (fun x => [(x, 0)])) :=
  stitch_loop_exhausts_pool demo_kernel demo_surface false 0
    [[demo_medium_hole, demo_big_hole], [demo_nested_hole], [demo_nested_hole]] demo_stitch
    (by decide)

end Pcb2gcode
